import Mathlib

/-!
# praq4: PPP/LZP with variable-length coding of MTF ranks

A shallow embedding of `praq4.c` (`compress`, `decompress`, the command parser and
the two branches of `main`) together with the properties of the encoder/decoder pair.

Conventions of the embedding

* C `int` values are natural numbers.  The context `prev` is reduced with `&&& WMASK`
  exactly as in the source.  The run counter `b` of `compress` is held as the 32-bit
  pattern of the `int` and incremented modulo `2^32`; the counter of the replay loop of
  `decompress` counts down from `get_vlcode(0)+1` in the same arithmetic, which makes that
  many passes.  The frequency counters `table[..].f`, declared in `mtf.c`, are natural
  numbers; they grow by one per input byte and are only ever compared, so they stand
  for the counters of the program on every input shorter than `2^31` bytes.
* A byte is a natural number below 256.
* The bit sink is the list of calls made to it (`Put`), rendered to a `List Bool`; the
  bit source is a `List Bool`.  Bits are not packed into bytes.
* `gtbitio2.c`, `ucodes2.c` and `mtf.c` are included by `praq4.c` but are not part of
  the sources at hand.  The fixed-width bit field, the bit source and the symbol-rank
  list are modelled from the specification; the variable-length integer codec is a
  parameter (`VLCodec`) constrained by the contract the specification gives for it, and
  `refCodec` is one codec that meets the contract.
* `decompress` is a loop without a bound; it is followed for a given number of passes,
  and its result says whether it has stopped by then (`Stop`).
* What the bit source does once it has run out is in `gtbitio2.c`, and `praq4.c` has no
  branch for it; the reads are made total (see `get_bit`), and no property below
  depends on the value chosen there.
* The input of `compress` comes as the successive reads of `fread`; the inner loop goes
  through a read by index (`encWhile`), which for a read that fits the look-ahead
  buffer is the plain traversal of its bytes (`encBuf`).
-/

namespace Praq4

/-! ## Constants of `praq4.c` -/

/-- Constant `#define BSIZE 3`. -/
def BSIZE : Nat := 3

/-- Constant `#define EOF_PPP 255`. -/
def EOF_PPP : Nat := 255

/-- Constant `#define EOF_VLC 256`. -/
def EOF_VLC : Nat := 256

/-- Constant `#define WBITS 20`. -/
def WBITS : Nat := 20

/-- Constant `#define WSIZE (1<<WBITS)`. -/
def WSIZE : Nat := 1 <<< WBITS

/-- Constant `#define WMASK (WSIZE-1)`. -/
def WMASK : Nat := WSIZE - 1

/-- The `enum { COMPRESS, DECOMPRESS }` together with the initial value `-1` of `mode`. -/
inductive Mode where
  | unset
  | COMPRESS
  | DECOMPRESS
  deriving DecidableEq

/-- Code `mPPP = 1` of the second `enum`. -/
def mPPP : Nat := 1

/-- Code `mVLCODE = 2` of the second `enum`. -/
def mVLCODE : Nat := 2

/-! ## Collaborators: bit sink and source -/

/-- Modelled from the spec: the bit sink of `gtbitio2.c` ("write a single bit; write an
N-bit unsigned field"), recorded as the call made by `compress`, plus the call to the
variable-length coder of `ucodes2.c`. -/
inductive Put where
  | ONE
  | ZERO
  | nbits (k size : Nat)
  | vlcode (n B : Nat)
  deriving DecidableEq

/-- Modelled from the spec: `put_nbits(k, size)` of `gtbitio2.c`, "write an N-bit
unsigned field".  The field is written most significant bit first; the specification
does not fix the order and no property below depends on it. -/
def put_nbits (k : Nat) : Nat → List Bool
  | 0 => []
  | n + 1 => k.testBit n :: put_nbits k n

/-- Modelled from the spec: `get_bit()` of `gtbitio2.c`, "read a single bit": the bit
and the rest of the source.  On a source that has run out the specification has the bit
source signal truncation (§6) and reports the reference behaviour as not validated (§7,
§9); `praq4.c` uses the value returned and has no branch for a signal.  The function is
made total by the value 0 there, which stands for no behaviour of the program: every
property of `decompress` on arbitrary bits below is an invariant of the states it
reaches or a bound on what it delivers, and holds as well of a run that is cut short. -/
def get_bit : List Bool → Bool × List Bool
  | [] => (false, [])
  | b :: bs => (b, bs)

/-- Modelled from the spec: `get_nbits(size)` of `gtbitio2.c`, "read an N-bit unsigned
field", the inverse of `put_nbits`. -/
def get_nbits : Nat → List Bool → Nat × List Bool
  | 0, bs => (0, bs)
  | n + 1, bs =>
    let r1 := get_bit bs
    let r2 := get_nbits n r1.2
    ((if r1.1 then 2 ^ n else 0) + r2.1, r2.2)

/-- The variable-length integer codec of `ucodes2.c`, a parameter of the development:
`put_vlcode n B` is the code word of `n` for minimum width `B`, `get_vlcode B` reads one
code word off the front of the bit source and returns its value and the rest of the
source. -/
structure VLCodec where
  put_vlcode : Nat → Nat → List Bool
  get_vlcode : Nat → List Bool → Nat × List Bool

/-- Contract of the codec, "strictly invertible" and "self-delimiting": reading a code
word written with the same minimum width returns the value and leaves what follows. -/
def VLCodec.Inverts (vc : VLCodec) : Prop :=
  ∀ n B rest, vc.get_vlcode B (vc.put_vlcode n B ++ rest) = (n, rest)

/-- Modelled from the spec: a codec meeting the contract of `ucodes2.c` ("a
self-delimiting code parameterized by a minimum field width", "1+B-bit floor" for the
first `2^B` values): a value below `2^B` is a 0 bit and a `B`-bit field, a larger one is
a 1 bit followed by the code of `n - 2^B` for width `B + 1`. -/
def refPut : Nat → Nat → Nat → List Bool
  | 0, _, _ => []
  | fuel + 1, n, B =>
    if n < 2 ^ B then false :: put_nbits n B
    else true :: refPut fuel (n - 2 ^ B) (B + 1)

/-- Reader of the reference codec: count the leading 1 bits, widening the field by one
for each, then read the field. -/
def refGet : Nat → List Bool → Nat × List Bool
  | B, [] => get_nbits B []
  | B, false :: bs => get_nbits B bs
  | B, true :: bs =>
    let r := refGet (B + 1) bs
    (2 ^ B + r.1, r.2)

/-- The reference codec. -/
def refCodec : VLCodec where
  put_vlcode := fun n B => refPut (n + 1) n B
  get_vlcode := refGet

/-- Rendering of one call to the bit sink as the bits it appends. -/
def Put.bits (vc : VLCodec) : Put → List Bool
  | .ONE => [true]
  | .ZERO => [false]
  | .nbits k size => put_nbits k size
  | .vlcode n B => vc.put_vlcode n B

/-- The bits appended by a sequence of calls. -/
def render (vc : VLCodec) (ps : List Put) : List Bool :=
  ps.flatMap (Put.bits vc)

/-! ## Collaborator: the symbol-rank list of `mtf.c` -/

/-- Modelled from the spec: `alloc_mtf(256)` of `mtf.c`, "allocate N entries in identity
order with zero frequencies"; this is the list order, head first. -/
def alloc_mtf (n : Nat) : List Nat := List.range n

/-- Modelled from the spec: `mtf(c)` of `mtf.c`, "move a given symbol to the front and
report its pre-move position".  The result is the position and the new list order.  It is
only ever called with a symbol that is in the list (`St.Inv`). -/
def mtf (c : Nat) (order : List Nat) : Nat × List Nat :=
  (order.indexOf c, c :: order.erase c)

/-- Modelled from the spec: `get_mtf_c(i)` of `mtf.c`, "resolve a position back to the
symbol currently occupying it", which on a literal happens "while simultaneously moving
c to the front".  A position past the end of the list has no symbol (`none`). -/
def get_mtf_c (i : Nat) (order : List Nat) : Option (Nat × List Nat) :=
  match order[i]? with
  | none => none
  | some c => some (c, c :: order.eraseIdx i)

/-- Modelled from the spec: `head->c` of `mtf.c`, "the current front element". -/
def head_c (order : List Nat) : Nat := order.headD 0

/-! ## State shared by `compress` and `decompress` -/

/-- The prediction buffer `w[]`, the symbol-rank list (`order`) with its counters
`table[..].f`, the anchor `rank` and the context `prev`. -/
structure St where
  w : Nat → Nat
  order : List Nat
  f : Nat → Nat
  rank : Nat
  prev : Nat

/-- State set up by `main` (`memset(win_buf, 0, WSIZE)`, `alloc_mtf(256)`) and by the
initialisers `rank=0, prev=0`. -/
def St.init : St where
  w := fun _ => 0
  order := alloc_mtf 256
  f := fun _ => 0
  rank := 0
  prev := 0

/-- The context update `prev = ((prev<<5)+c) & WMASK`. -/
def advance (prev c : Nat) : Nat := ((prev <<< 5) + c) &&& WMASK

/-- The context reached from `prev = 0` once the bytes `P` have been processed: the
update is made after every byte, by `compress` (line 187) and by `decompress` (lines 219
and 235) alike. -/
def context (P : List Nat) : Nat := P.foldl advance 0

/-- Matched byte in `compress` (lines 158-164):
`if (++table[c].f >= table[rank].f) rank = c; if (head->c != rank) mtf(rank);`
executed only `if (mcode == mVLCODE)`.  When `rank` is `c` the comparison holds whether
its right operand is read before or after the increment. -/
def encMatchUpdate (mcode : Nat) (s : St) (c : Nat) : St :=
  if mcode = mVLCODE then
    let f1 := Function.update s.f c (s.f c + 1)
    let rank1 := if f1 c ≥ f1 s.rank then c else s.rank
    let order1 := if head_c s.order ≠ rank1 then (mtf rank1 s.order).2 else s.order
    { s with f := f1, rank := rank1, order := order1 }
  else s

/-- Matched byte in `decompress` (lines 213-218):
`if (++table[c].f >= table[rank].f) rank = c; mtf(rank);`
executed only `if (mcode == mVLCODE)`. -/
def decMatchUpdate (mcode : Nat) (s : St) (c : Nat) : St :=
  if mcode = mVLCODE then
    let f1 := Function.update s.f c (s.f c + 1)
    let rank1 := if f1 c ≥ f1 s.rank then c else s.rank
    { s with f := f1, rank := rank1, order := (mtf rank1 s.order).2 }
  else s

/-- Anchor update after a literal (lines 180-182 and 229-231), on the list order
`order1` left by the move to front:
`if (!(table[rank].f > ++table[c].f && head->c != c)) rank = c;`
When `rank` is `c` the comparison fails whether its left operand is read before or after
the increment. -/
def litUpdate (s : St) (c : Nat) (order1 : List Nat) : St :=
  let f1 := Function.update s.f c (s.f c + 1)
  let rank1 := if ¬ (f1 s.rank > f1 c ∧ head_c order1 ≠ c) then c else s.rank
  { s with f := f1, rank := rank1, order := order1 }

/-! ## `compress` -/

/-- Flush of the run counter (lines 167-171 and 192-196):
`if (b) { put_ONE(); put_vlcode(--b, 0); } else put_ZERO();`
on the 32-bit pattern `b` of the counter: the test is on `b` being 0 or not, and the
value handed to `put_vlcode` is the pattern `b - 1`. -/
def flushRun (b : Nat) : List Put :=
  if b ≠ 0 then [Put.ONE, Put.vlcode (b - 1) 0] else [Put.ZERO]

/-- Literal in `compress` (lines 173-183): the calls made and the table state after. -/
def encLiteral (mcode : Nat) (s : St) (c : Nat) : St × List Put :=
  if mcode = mPPP then
    (s, Put.nbits c 8 :: (if c = EOF_PPP then [Put.ZERO] else []))
  else
    let r := mtf c s.order
    (litUpdate s c r.2, [Put.vlcode r.1 BSIZE])

/-- Encoder state: the shared state and the run counter `register int b`, held as its
32-bit pattern. -/
structure Enc where
  s : St
  b : Nat

/-- Initial encoder state: `b=0`. -/
def Enc.init : Enc := ⟨St.init, 0⟩

/-- One pass of the inner loop of `compress` (lines 156-187) on the byte `c = p[n&WMASK]`:
the new state and the calls made to the bit sink.  The increment `b++` of the `int` is
made modulo `2^32`: after `2^32` predicted bytes in a row the counter is 0 again. -/
def encStep (mcode : Nat) (e : Enc) (c : Nat) : Enc × List Put :=
  if e.s.w e.s.prev = c then
    let s1 := encMatchUpdate mcode e.s c
    (⟨{ s1 with prev := advance s1.prev c }, (e.b + 1) % 2 ^ 32⟩, [])
  else
    let r := encLiteral mcode e.s c
    let s2 := { r.1 with w := Function.update r.1.w r.1.prev c }
    (⟨{ s2 with prev := advance s2.prev c }, 0⟩, flushRun e.b ++ r.2)

/-- The bytes `p` processed one after the other, each by one pass of the inner loop. -/
def encBuf (mcode : Nat) : Enc → List Nat → Enc × List Put
  | e, [] => (e, [])
  | e, c :: p =>
    let r1 := encStep mcode e c
    let r2 := encBuf mcode r1.1 p
    (r2.1, r1.2 ++ r2.2)

/-- The inner loop of `compress` (lines 154-188) on the look-ahead buffer `p` filled by
one read of `nread = p.length` bytes:
`n = 0; while (n < nread) { c = p[n&WMASK]; ...; n++; ... }`,
here from the index `n` on and for at most `k` passes. -/
def encWhile (mcode : Nat) (p : List Nat) : Nat → Nat → Enc → Enc × List Put
  | 0, _, e => (e, [])
  | k + 1, n, e =>
    if n < p.length then
      let r1 := encStep mcode e (p.getD (n &&& WMASK) 0)
      let r2 := encWhile mcode p k (n + 1) r1.1
      (r2.1, r1.2 ++ r2.2)
    else (e, [])

/-- The outer loop `while ((nread=fread(p, 1, WSIZE, gIN)))` over the successive reads:
a read of no byte ends it, any other is gone through by the inner loop, which makes
`nread` passes. -/
def encReads (mcode : Nat) : Enc → List (List Nat) → Enc × List Put
  | e, [] => (e, [])
  | e, p :: ps =>
    if p.length = 0 then (e, [])
    else
      let r1 := encWhile mcode p p.length 0 e
      let r2 := encReads mcode r1.1 ps
      (r2.1, r1.2 ++ r2.2)

/-- End of `compress` (lines 191-201): flush the run, then the end-of-stream marker. -/
def encEOF (mcode : Nat) (b : Nat) : List Put :=
  flushRun b ++
    (if mcode = mPPP then [Put.nbits EOF_PPP 8, Put.ONE] else [Put.vlcode EOF_VLC BSIZE])

/-- What `fread(p, 1, WSIZE, gIN)` returns read after read on an input `S`: blocks of
`WSIZE` bytes, the last one possibly shorter, until nothing is left. -/
def freads : Nat → List Nat → List (List Nat)
  | 0, _ => []
  | k + 1, S => if S = [] then [] else S.take WSIZE :: freads k (S.drop WSIZE)

/-- The calls `compress` makes to the bit sink given the successive reads. -/
def compressCalls (mcode : Nat) (reads : List (List Nat)) : List Put :=
  let r := encReads mcode Enc.init reads
  r.2 ++ encEOF mcode r.1.b

/-- The function `compress` on the input `S`: the bits written after the file stamp. -/
def compress (vc : VLCodec) (mcode : Nat) (S : List Nat) : List Bool :=
  render vc (compressCalls mcode (freads S.length S))

/-! ## `decompress` -/

/-- How the run of `decompress` ends: on the end-of-stream marker (`eos`, the two
`return`s of the source, which has no other exit), on a rank that names no position of
the 256-entry list (`badRank`: `get_mtf_c` would walk off the list), or still running
after the number of passes followed (`running`). -/
inductive Stop where
  | eos
  | badRank
  | running
  deriving DecidableEq

/-- The inner loop of `decompress` (lines 211-220), `do { ... } while (--b)` entered with
`b = n`, that is `n` passes for `n ≥ 1`: the state after and the bytes given to `pfputc`. -/
def replay (mcode : Nat) : Nat → St → St × List Nat
  | 0, s => (s, [])
  | n + 1, s =>
    let c := s.w s.prev
    let s1 := decMatchUpdate mcode s c
    let r := replay mcode n { s1 with prev := advance s1.prev c }
    (r.1, c :: r.2)

/-- The run part of one pass of `decompress` (lines 209-221):
`if (get_bit()) { b = get_vlcode(0)+1; do ... while (--b); }`:
the state after, the bytes given to `pfputc` and the rest of the source.  Counting down
modulo `2^32` from the pattern of `v + 1` the loop reaches 0 after `v + 1` passes, for
every value `v` below `2^32`. -/
def decRun (vc : VLCodec) (mcode : Nat) (s : St) (bs : List Bool) :
    St × List Nat × List Bool :=
  let r0 := get_bit bs
  if r0.1 then
    let r1 := vc.get_vlcode 0 r0.2
    let r := replay mcode (r1.1 + 1) s
    (r.1, r.2, r1.2)
  else (s, [], r0.2)

/-- Result of the literal part of one pass of `decompress`. -/
inductive Lit where
  | byte (c : Nat) (s : St) (rest : List Bool)
  | stop (why : Stop)

/-- The literal part of one pass of `decompress` (lines 222-232). -/
def decLiteral (vc : VLCodec) (mcode : Nat) (s : St) (bs : List Bool) : Lit :=
  if mcode = mPPP then
    let r := get_nbits 8 bs
    if r.1 = EOF_PPP then
      let r1 := get_bit r.2
      if r1.1 then .stop .eos else .byte r.1 s r1.2
    else .byte r.1 s r.2
  else
    let r := vc.get_vlcode BSIZE bs
    if r.1 = EOF_VLC then .stop .eos
    else
      match get_mtf_c r.1 s.order with
      | none => .stop .badRank
      | some (c, order1) => .byte c (litUpdate s c order1) r.2

/-- The loop `do { ... } while (1)` of `decompress` (lines 208-236), followed for at most
`k` passes: the bytes given to `pfputc` and the way the run ended. -/
def decLoop (vc : VLCodec) (mcode : Nat) : Nat → St → List Bool → List Nat × Stop
  | 0, _, _ => ([], .running)
  | k + 1, s, bs =>
    let r := decRun vc mcode s bs
    match decLiteral vc mcode r.1 r.2.2 with
    | .stop why => (r.2.1, why)
    | .byte c s2 bs2 =>
      let s3 := { s2 with w := Function.update s2.w s2.prev c }
      let r2 := decLoop vc mcode k { s3 with prev := advance s3.prev c } bs2
      (r.2.1 ++ c :: r2.1, r2.2)

/-- The function `decompress` on the bits that follow the file stamp, followed for at most
`k` passes of its loop, from the state set up by `main`. -/
def decompress (vc : VLCodec) (mcode : Nat) (k : Nat) (bs : List Bool) : List Nat × Stop :=
  decLoop vc mcode k St.init bs

/-! ## `main` -/

/-- The string terminator. -/
def NUL : Char := Char.ofNat 0

/-- The parser loop of `main` (lines 71-87) on the characters of `argv[1]` from `cmd`
on, with the current `mode` and `mcode`.  `none` is a call of `usage()`, which exits;
`some` is the loop left with `cmd = NULL`. -/
def parseCmd : Mode → Nat → List Char → Option (Mode × Nat)
  | mode, mcode, [] => some (mode, if mcode = 0 then mPPP else mcode)
  | mode, mcode, ch :: rest =>
    if ch = 'c' then
      if mode = .unset then parseCmd .COMPRESS mcode rest else none
    else if ch = 'd' then
      if mode = .unset then
        if rest.headD NUL ≠ NUL then none else parseCmd .DECOMPRESS mcode rest
      else none
    else if ch = '1' then
      if mode = .unset ∨ mode = .DECOMPRESS ∨ mcode ≠ 0 then none
      else parseCmd mode mPPP rest
    else if ch = '2' then
      if mode = .unset ∨ mode = .DECOMPRESS ∨ mcode ≠ 0 then none
      else parseCmd mode mVLCODE rest
    else if ch = NUL then some (mode, if mcode = 0 then mPPP else mcode)
    else none

/-- The parser of `main` from its initial state `mode = -1`, `mcode = 0`. -/
def parseArgs (cmd : List Char) : Option (Mode × Nat) := parseCmd .unset 0 cmd

/-- The file stamp written by the compress branch of `main` (lines 105-106):
`strcpy(fstamp.alg, "LZP"); fstamp.alg[3] = (char) mcode;` -/
def fileStamp (mcode : Nat) : List Nat := [0x4C, 0x5A, 0x50, mcode]

/-- The compress branch of `main` (lines 103-113): the four bytes of the file stamp and
the bits that follow. -/
def mainCompress (vc : VLCodec) (mcode : Nat) (S : List Nat) : List Nat × List Bool :=
  (fileStamp mcode, compress vc mcode S)

/-- The decompress branch of `main` (lines 114-123) on a file made of the stamp `fstamp`
and the bits `bs`, entered with the value `mcode0` the parser left in `mcode`:
`mcode = fstamp.alg[3]; decompress(win_buf);` with `decompress` followed for `k` passes.
The byte is kept as it is: `mcode` is only ever compared with 1 and 2, so the sign a
`char` above 127 may take does not matter. -/
def mainDecompress (vc : VLCodec) (_mcode0 : Nat) (fstamp : List Nat) (k : Nat)
    (bs : List Bool) : List Nat × Stop :=
  let mcode := fstamp.getD 3 0
  decompress vc mcode k bs

/-! ## Instrumented runs: the event log -/

/-- An event of the coder: a run length flushed or read, a literal (the byte in raw mode,
the rank otherwise), or the end-of-stream marker. -/
inductive Event where
  | run (n : Nat)
  | lit (v : Nat)
  | eos
  deriving DecidableEq

/-- The function `compress` from the state `e` on the input `S`, instrumented to log,
each time it writes, the event and the shared state at that point: the run flushed and
the state before the literal, then the literal and the state after `prev` has been
advanced. -/
def encLog (mcode : Nat) : Enc → List Nat → List (Event × St)
  | e, [] => [(.run e.b, e.s), (.eos, e.s)]
  | e, c :: S =>
    let r := encStep mcode e c
    if e.s.w e.s.prev = c then encLog mcode r.1 S
    else
      (.run e.b, e.s)
        :: (.lit (if mcode = mPPP then c else (mtf c e.s.order).1), r.1.s)
        :: encLog mcode r.1 S

/-- The run length read by one pass of `decompress` (lines 209-210): `get_vlcode(0)+1`
when the flag bit is set, no run otherwise. -/
def decRunLen (vc : VLCodec) (bs : List Bool) : Nat :=
  if (get_bit bs).1 then (vc.get_vlcode 0 (get_bit bs).2).1 + 1 else 0

/-- The function `decompress`, followed for at most `k` passes, instrumented to log the
same events with the shared state at the same points: after the run has been replayed,
and after the literal has been delivered and `prev` advanced. -/
def decLog (vc : VLCodec) (mcode : Nat) : Nat → St → List Bool → List (Event × St)
  | 0, _, _ => []
  | k + 1, s, bs =>
    let r := decRun vc mcode s bs
    let v := if mcode = mPPP then (get_nbits 8 r.2.2).1 else (vc.get_vlcode BSIZE r.2.2).1
    match decLiteral vc mcode r.1 r.2.2 with
    | .stop .eos => [(.run (decRunLen vc bs), r.1), (.eos, r.1)]
    | .stop _ => [(.run (decRunLen vc bs), r.1)]
    | .byte c s2 bs2 =>
      let s3 := { s2 with w := Function.update s2.w s2.prev c }
      let s4 := { s3 with prev := advance s3.prev c }
      (.run (decRunLen vc bs), r.1) :: (.lit v, s4) :: decLog vc mcode k s4 bs2

/-- The calls to the bit sink that write an event. -/
def Event.calls (mcode : Nat) : Event → List Put
  | .run n => flushRun n
  | .lit v =>
    if mcode = mPPP then Put.nbits v 8 :: (if v = EOF_PPP then [Put.ZERO] else [])
    else [Put.vlcode v BSIZE]
  | .eos => if mcode = mPPP then [Put.nbits EOF_PPP 8, Put.ONE] else [Put.vlcode EOF_VLC BSIZE]

/-- The number of bytes an event stands for. -/
def Event.bytes : Event → Nat
  | .run n => n
  | .lit _ => 1
  | .eos => 0

/-- A record of the stream: the number `k` of bytes predicted since the previous record,
and the value the mispredicted byte is coded as (the byte in raw mode, its rank
otherwise), or `none` in the final record. -/
structure Record where
  k : Nat
  lit : Option Nat
  deriving DecidableEq

/-- The records of the input `S` as `compress` goes through it from the state `e`: none
for a predicted byte, one for a mispredicted byte, and the final one at the end of the
input; `k` is the number of bytes predicted since the previous record. -/
def encRecords (mcode : Nat) : Nat → Enc → List Nat → List Record
  | k, _, [] => [⟨k, none⟩]
  | k, e, c :: S =>
    let r := encStep mcode e c
    if e.s.w e.s.prev = c then encRecords mcode (k + 1) r.1 S
    else ⟨k, some (if mcode = mPPP then c else (mtf c e.s.order).1)⟩ :: encRecords mcode 0 r.1 S

/-- Following the spec (§4.2, §4.3), the bits of a record: "if `RunCounter > 0`, emit a
`1` flag bit followed by the variable-length code of `RunCounter - 1` using minimum code
width 0; if `RunCounter == 0`, emit a `0` flag bit and no code"; then the literal, in raw
mode "an 8-bit field" and "a disambiguation bit" 0 "only when the literal equals that
sentinel value", in rank mode "the variable-length code of its current position" with
minimum width `B`; or, in the final record, the end of stream, the sentinel field and a
1 bit in raw mode, the code of 256 in rank mode. -/
def Record.bits (vc : VLCodec) (mcode : Nat) (r : Record) : List Bool :=
  (if r.k = 0 then [false] else true :: vc.put_vlcode (r.k - 1) 0) ++
    match r.lit with
    | some v =>
      if mcode = mPPP then put_nbits v 8 ++ (if v = 255 then [false] else [])
      else vc.put_vlcode v 3
    | none =>
      if mcode = mPPP then put_nbits 255 8 ++ [true] else vc.put_vlcode 256 3

/-- The shared state in which `decompress`, followed for at most `k` passes, is left:
the state `decLoop` ends in. -/
def decEnd (vc : VLCodec) (mcode : Nat) : Nat → St → List Bool → St
  | 0, s, _ => s
  | k + 1, s, bs =>
    let r := decRun vc mcode s bs
    match decLiteral vc mcode r.1 r.2.2 with
    | .stop _ => r.1
    | .byte c s2 bs2 =>
      let s3 := { s2 with w := Function.update s2.w s2.prev c }
      decEnd vc mcode k { s3 with prev := advance s3.prev c } bs2

/-- Following the spec (§2, §4.1), what the prediction table `w` holds once the bytes `P`
have been processed: for every context `h`, "the last byte observed after that context",
that is the byte at the most recent position of `P` whose context was `h`, and 0, the
initial value, when `h` was the context of no position. -/
def TableMeans (w : Nat → Nat) (P : List Nat) : Prop :=
  ∀ h,
    (∀ i, i < P.length → context (P.take i) = h →
      (∀ j, i < j → j < P.length → context (P.take j) ≠ h) → w h = P.getD i 0)
    ∧ ((∀ i, i < P.length → context (P.take i) ≠ h) → w h = 0)

/-- The table and the context of `decompress` after the bytes `P` of its output. -/
def DecTab (s : St) (P : List Nat) : Prop := s.prev = context P ∧ TableMeans s.w P

/-- The calls made by `compress` from the encoder state `e` on, for the input `S` still
to come in the current and later reads, end of stream included. -/
def encRest (mcode : Nat) (e : Enc) (S : List Nat) : List Put :=
  (encBuf mcode e S).2 ++ encEOF mcode (encBuf mcode e S).1.b

/-- Invariant of the shared state: the list holds each of the 256 symbols once, the
anchor is a symbol, and the prediction buffer holds bytes. -/
structure St.Inv (s : St) : Prop where
  perm : s.order.Perm (List.range 256)
  rank : s.rank < 256
  bytes : ∀ i, s.w i < 256

/-! ## Properties

### Bit fields and the reference codec -/

theorem put_nbits_length (k n : Nat) : (put_nbits k n).length = n := by
  induction n with
  | zero => rfl
  | succ n ih => simp [put_nbits, ih]

theorem put_nbits_mod (k n m : Nat) (h : n ≤ m) : put_nbits (k % 2 ^ m) n = put_nbits k n := by
  induction n with
  | zero => rfl
  | succ n ih =>
    have hn : n < m := h
    simp [put_nbits, ih (by omega), Nat.testBit_mod_two_pow, hn]

theorem bit_weight_add_mod (k P : Nat) (hk : k < P * 2) :
    (if k / P % 2 = 1 then P else 0) + k % P = k := by
  have hd : k / P < 2 := Nat.div_lt_of_lt_mul hk
  have hk2 := Nat.div_add_mod k P
  have hq : k / P = 0 ∨ k / P = 1 := by
    generalize k / P = q at hd
    omega
  rcases hq with h | h
  · rw [h] at hk2 ⊢
    simpa using hk2
  · rw [h] at hk2 ⊢
    simpa using hk2

/-- Reading a field written with the same width returns the value and what follows. -/
theorem get_nbits_put_nbits (n k : Nat) (rest : List Bool) (hk : k < 2 ^ n) :
    get_nbits n (put_nbits k n ++ rest) = (k, rest) := by
  induction n generalizing k with
  | zero =>
    have : k = 0 := by simpa using hk
    simp [get_nbits, put_nbits, this]
  | succ n ih =>
    have hp : 0 < 2 ^ n := by positivity
    have ih2 := ih _ (Nat.mod_lt k hp)
    rw [put_nbits_mod k n n le_rfl] at ih2
    have key := bit_weight_add_mod k (2 ^ n) (by rw [pow_succ] at hk; exact hk)
    simp only [put_nbits, List.cons_append, get_nbits, get_bit, ih2,
      Nat.testBit_to_div_mod, decide_eq_true_eq, key]

/-- A field of `n` bits is below `2^n`. -/
theorem get_nbits_lt (n : Nat) (bs : List Bool) : (get_nbits n bs).1 < 2 ^ n := by
  induction n generalizing bs with
  | zero => simp [get_nbits]
  | succ n ih =>
    have := ih (get_bit bs).2
    simp only [get_nbits, pow_succ]
    split <;> omega

theorem refGet_refPut (fuel n B : Nat) (rest : List Bool) (h : n < fuel) :
    refGet B (refPut fuel n B ++ rest) = (n, rest) := by
  induction fuel generalizing n B with
  | zero => omega
  | succ fuel ih =>
    unfold refPut
    by_cases hn : n < 2 ^ B
    · simp only [hn, if_true, List.cons_append, refGet]
      exact get_nbits_put_nbits B n rest hn
    · have hp : 0 < 2 ^ B := by positivity
      simp only [hn, if_false, List.cons_append, refGet]
      rw [ih (n - 2 ^ B) (B + 1) (by omega)]
      simp only [Prod.mk.injEq, and_true]
      omega

/-- The reference codec meets the contract. -/
theorem refCodec_inverts : refCodec.Inverts := by
  intro n B rest
  exact refGet_refPut (n + 1) n B rest (Nat.lt_succ_self n)

/-! ### The symbol-rank list -/

theorem get_mtf_c_mtf (c : Nat) (order : List Nat) (h : c ∈ order) :
    get_mtf_c (mtf c order).1 order = some (c, (mtf c order).2) := by
  simp [get_mtf_c, mtf, List.getElem?_indexOf h]

theorem mtf_head (c : Nat) (order : List Nat) (hne : order ≠ []) (h : head_c order = c) :
    (mtf c order).2 = order := by
  cases order with
  | nil => exact absurd rfl hne
  | cons a tl =>
    simp [head_c] at h
    subst h
    simp [mtf]

/-! ### Invariant of the shared state -/

theorem St.Inv.mem {s : St} (h : s.Inv) {c : Nat} (hc : c < 256) : c ∈ s.order :=
  h.perm.symm.subset (List.mem_range.mpr hc)

theorem St.Inv.length {s : St} (h : s.Inv) : s.order.length = 256 := by
  simpa using h.perm.length_eq

theorem St.Inv.ne_nil {s : St} (h : s.Inv) : s.order ≠ [] := by
  intro e
  have := h.length
  simp [e] at this

theorem St.init_inv : St.init.Inv where
  perm := by
    simp only [St.init, alloc_mtf]
    exact List.Perm.refl _
  rank := by
    show (0 : Nat) < 256
    omega
  bytes := fun _ => by
    show (0 : Nat) < 256
    omega

theorem mtf_perm {c : Nat} {order : List Nat} (h : c ∈ order) :
    (mtf c order).2.Perm order :=
  (List.perm_cons_erase h).symm

theorem mtf_fst_lt {c : Nat} {order : List Nat} (h : c ∈ order) :
    (mtf c order).1 < order.length :=
  List.indexOf_lt_length.mpr h

theorem decMatchUpdate_inv (mcode : Nat) {s : St} (h : s.Inv) {c : Nat} (hc : c < 256) :
    (decMatchUpdate mcode s c).Inv := by
  unfold decMatchUpdate
  split
  · have hr : (if Function.update s.f c (s.f c + 1) c ≥ Function.update s.f c (s.f c + 1) s.rank
        then c else s.rank) < 256 := by
      split
      · exact hc
      · exact h.rank
    exact ⟨(mtf_perm (h.mem hr)).trans h.perm, hr, h.bytes⟩
  · exact h

theorem encMatchUpdate_eq (mcode : Nat) {s : St} (h : s.Inv) (c : Nat) :
    encMatchUpdate mcode s c = decMatchUpdate mcode s c := by
  have key : ∀ r, (if head_c s.order ≠ r then (mtf r s.order).2 else s.order)
      = (mtf r s.order).2 := by
    intro r
    split
    · rfl
    · rename_i hh
      exact (mtf_head _ _ h.ne_nil (not_not.mp hh)).symm
  unfold encMatchUpdate decMatchUpdate
  simp only [key]

theorem litUpdate_inv {s : St} (h : s.Inv) {c : Nat} (hc : c < 256) {order1 : List Nat}
    (hp : order1.Perm s.order) : (litUpdate s c order1).Inv := by
  refine ⟨hp.trans h.perm, ?_, h.bytes⟩
  simp only [litUpdate]
  split
  · exact hc
  · exact h.rank

/-- The state after one byte has been processed, matched or literal: `w[prev] = c` is
skipped for a matched byte. -/
theorem replay_succ (mcode n : Nat) (s : St) :
    replay mcode (n + 1) s =
      (let r := replay mcode n s
       let c := r.1.w r.1.prev
       let s1 := decMatchUpdate mcode r.1 c
       ({ s1 with prev := advance s1.prev c }, r.2 ++ [c])) := by
  induction n generalizing s with
  | zero => simp [replay]
  | succ n ih =>
    rw [replay, ih]
    simp [replay]

theorem replay_inv (mcode n : Nat) {s : St} (h : s.Inv) : (replay mcode n s).1.Inv := by
  induction n generalizing s with
  | zero => exact h
  | succ n ih =>
    rw [replay]
    apply ih
    have := decMatchUpdate_inv mcode h (h.bytes s.prev)
    exact ⟨this.perm, this.rank, this.bytes⟩

/-! ### Decoding what the encoder writes: one record, then the whole stream -/

theorem render_append (vc : VLCodec) (p q : List Put) :
    render vc (p ++ q) = render vc p ++ render vc q := by
  simp [render]

theorem render_flushRun_length_pos (vc : VLCodec) (b : Nat) :
    0 < (render vc (flushRun b)).length := by
  unfold flushRun
  split <;> simp [render, Put.bits]

/-- The decoder's run part reads back a flushed run counter and replays the run. -/
theorem decRun_flushRun (vc : VLCodec) (hv : vc.Inverts) (mcode b : Nat) (s : St)
    (rest : List Bool) :
    decRun vc mcode s (render vc (flushRun b) ++ rest)
      = ((replay mcode b s).1, (replay mcode b s).2, rest) := by
  unfold flushRun
  by_cases hb : b = 0
  · subst hb
    simp [render, Put.bits, decRun, get_bit, replay]
  · have e : b - 1 + 1 = b := by omega
    simp [hb, render, Put.bits, decRun, get_bit, hv (b - 1) 0 rest, e]

/-- The decoder's literal part reads back the literal written by the encoder and leaves
the tables as the encoder left them. -/
theorem decLiteral_encLiteral (vc : VLCodec) (hv : vc.Inverts) (mcode : Nat) {s : St}
    (h : s.Inv) {c : Nat} (hc : c < 256) (rest : List Bool) :
    decLiteral vc mcode s (render vc (encLiteral mcode s c).2 ++ rest)
      = .byte c (encLiteral mcode s c).1 rest := by
  unfold decLiteral encLiteral
  by_cases hm : mcode = mPPP
  · simp only [hm, if_true]
    by_cases hE : c = EOF_PPP
    · simp [hE, render, Put.bits, get_nbits_put_nbits 8 EOF_PPP _ (by decide : EOF_PPP < 2 ^ 8),
        get_bit]
    · simp [hE, render, Put.bits, get_nbits_put_nbits 8 c _ (by simpa using hc)]
  · simp only [hm, if_false]
    have hmem := h.mem hc
    have hlt : (mtf c s.order).1 ≠ EOF_VLC := by
      have := mtf_fst_lt hmem
      rw [h.length] at this
      unfold EOF_VLC
      omega
    simp [render, Put.bits, hv (mtf c s.order).1 BSIZE rest, hlt, get_mtf_c_mtf c s.order hmem]

/-- The decoder's literal part recognises the end-of-stream marker. -/
theorem decLiteral_eof (vc : VLCodec) (hv : vc.Inverts) (mcode : Nat) (s : St)
    (rest : List Bool) :
    decLiteral vc mcode s
      (render vc (if mcode = mPPP then [Put.nbits EOF_PPP 8, Put.ONE]
        else [Put.vlcode EOF_VLC BSIZE]) ++ rest) = .stop .eos := by
  unfold decLiteral
  by_cases hm : mcode = mPPP
  · simp [hm, render, Put.bits, get_nbits_put_nbits 8 EOF_PPP _ (by decide : EOF_PPP < 2 ^ 8),
      get_bit]
  · simp [hm, render, Put.bits, hv EOF_VLC BSIZE rest]

theorem encLiteral_inv (mcode : Nat) {s : St} (h : s.Inv) {c : Nat} (hc : c < 256) :
    (encLiteral mcode s c).1.Inv := by
  unfold encLiteral
  split
  · exact h
  · exact litUpdate_inv h hc (mtf_perm (h.mem hc))

theorem encRest_nil (mcode : Nat) (e : Enc) : encRest mcode e [] = encEOF mcode e.b := by
  simp [encRest, encBuf]

theorem encRest_cons (mcode : Nat) (e : Enc) (c : Nat) (S : List Nat) :
    encRest mcode e (c :: S) = (encStep mcode e c).2 ++ encRest mcode (encStep mcode e c).1 S := by
  simp [encRest, encBuf]

theorem encStep_match (mcode : Nat) (e : Enc) (c : Nat) (h : e.s.w e.s.prev = c) :
    encStep mcode e c =
      (⟨{ encMatchUpdate mcode e.s c with
          prev := advance (encMatchUpdate mcode e.s c).prev c }, (e.b + 1) % 2 ^ 32⟩, []) := by
  simp [encStep, h]

theorem encStep_literal (mcode : Nat) (e : Enc) (c : Nat) (h : e.s.w e.s.prev ≠ c) :
    encStep mcode e c =
      (⟨{ (encLiteral mcode e.s c).1 with
          w := Function.update (encLiteral mcode e.s c).1.w (encLiteral mcode e.s c).1.prev c
          prev := advance (encLiteral mcode e.s c).1.prev c }, 0⟩,
        flushRun e.b ++ (encLiteral mcode e.s c).2) := by
  simp [encStep, h]

theorem update_bytes {w : Nat → Nat} (h : ∀ i, w i < 256) (p : Nat) {c : Nat} (hc : c < 256) :
    ∀ i, Function.update w p c i < 256 := by
  intro i
  by_cases hi : i = p
  · subst hi; simpa using hc
  · simpa [Function.update, hi] using h i

/-- Decoding what the encoder writes from the state `e` on, as long as the run counter
does not wrap: the decoder, started in the state `s0` the encoder was in when its pending
run of `e.b` matched bytes began, outputs that run and then the remaining input, and
stops on the end-of-stream marker. -/
theorem decLoop_encRest (vc : VLCodec) (hv : vc.Inverts) (mcode : Nat) :
    ∀ (S : List Nat) (e : Enc) (s0 : St) (rest : List Bool) (k : Nat),
      (∀ c ∈ S, c < 256) → e.b + S.length < 2 ^ 32 → s0.Inv →
      (replay mcode e.b s0).1 = e.s →
      (render vc (encRest mcode e S)).length ≤ k →
      decLoop vc mcode k s0 (render vc (encRest mcode e S) ++ rest)
        = ((replay mcode e.b s0).2 ++ S, Stop.eos) := by
  intro S
  induction S with
  | nil =>
    intro e s0 rest k _ _ _ hsync hk
    have hpos := render_flushRun_length_pos vc e.b
    rw [encRest_nil, encEOF, render_append, List.length_append] at hk
    obtain ⟨k, rfl⟩ : ∃ k', k = k' + 1 := ⟨k - 1, by omega⟩
    rw [encRest_nil, encEOF, render_append, List.append_assoc, decLoop,
      decRun_flushRun vc hv]
    simp only [decLiteral_eof vc hv, List.append_nil]
  | cons c S ih =>
    intro e s0 rest k hS hlen hinv hsync hk
    have hc : c < 256 := hS c (List.mem_cons_self _ _)
    have hS2 : ∀ x ∈ S, x < 256 := fun x hx => hS x (List.mem_cons_of_mem _ hx)
    have hinvE : e.s.Inv := hsync ▸ replay_inv mcode e.b hinv
    rw [List.length_cons] at hlen
    by_cases hm : e.s.w e.s.prev = c
    · -- matched byte: nothing is written, the pending run grows
      have hstep := encStep_match mcode e c hm
      rw [Nat.mod_eq_of_lt (by omega)] at hstep
      rw [encRest_cons, hstep] at hk ⊢
      simp only [List.nil_append] at hk ⊢
      have hrep := replay_succ mcode e.b s0
      simp only [hsync, hm, ← encMatchUpdate_eq mcode hinvE c] at hrep
      have := ih ⟨_, e.b + 1⟩ s0 rest k hS2 (by show e.b + 1 + S.length < 2 ^ 32; omega)
        hinv (by rw [hrep]) hk
      rw [this, hrep]
      simp
    · -- mispredicted byte: the run is flushed and the literal written
      have hstep := encStep_literal mcode e c hm
      have hpos := render_flushRun_length_pos vc e.b
      rw [encRest_cons, hstep] at hk ⊢
      simp only [render_append, List.append_assoc, List.length_append] at hk ⊢
      obtain ⟨k, rfl⟩ : ∃ k', k = k' + 1 := ⟨k - 1, by omega⟩
      rw [decLoop, decRun_flushRun vc hv]
      simp only [hsync, decLiteral_encLiteral vc hv mcode hinvE hc]
      have hinvL := encLiteral_inv mcode hinvE hc
      have hinv2 : St.Inv { (encLiteral mcode e.s c).1 with
          w := Function.update (encLiteral mcode e.s c).1.w (encLiteral mcode e.s c).1.prev c
          prev := advance (encLiteral mcode e.s c).1.prev c } :=
        ⟨hinvL.perm, hinvL.rank, update_bytes hinvL.bytes _ hc⟩
      have hih := ih ⟨_, 0⟩ _ rest k hS2 (by show 0 + S.length < 2 ^ 32; omega) hinv2 rfl
        (by omega)
      simp only [replay, List.nil_append] at hih
      rw [hih]

theorem encBuf_append (mcode : Nat) (e : Enc) (p q : List Nat) :
    encBuf mcode e (p ++ q) =
      ((encBuf mcode (encBuf mcode e p).1 q).1,
        (encBuf mcode e p).2 ++ (encBuf mcode (encBuf mcode e p).1 q).2) := by
  induction p generalizing e with
  | nil => simp [encBuf]
  | cons c p ih => simp [encBuf, ih]

/-- An index into the look-ahead buffer is left alone by the mask. -/
theorem and_WMASK {n : Nat} (h : n < WSIZE) : n &&& WMASK = n := by
  have e : WMASK = 2 ^ 20 - 1 := by decide
  have hW : WSIZE = 2 ^ 20 := by decide
  rw [e, Nat.and_pow_two_sub_one_eq_mod, Nat.mod_eq_of_lt (hW ▸ h)]

/-- The inner loop on a read that fits the look-ahead buffer goes through the bytes read,
in order. -/
theorem encWhile_eq_encBuf (mcode : Nat) (p : List Nat) (hp : p.length ≤ WSIZE) (k n : Nat)
    (e : Enc) (hk : n + k = p.length) :
    encWhile mcode p k n e = encBuf mcode e (p.drop n) := by
  induction k generalizing n e with
  | zero =>
    have : p.drop n = [] := List.drop_eq_nil_of_le (by omega)
    simp [encWhile, this, encBuf]
  | succ k ih =>
    have hn : n < p.length := by omega
    have hd : p.drop n = p.getD n 0 :: p.drop (n + 1) := by
      rw [List.getD_eq_getElem _ _ hn]
      exact List.drop_eq_getElem_cons hn
    rw [encWhile, if_pos hn, and_WMASK (by omega), hd, encBuf]
    dsimp only
    rw [ih (n + 1) _ (by omega)]

/-- The encoder does not see the read boundaries: reads that are not empty and fit the
buffer are processed as their concatenation. -/
theorem encReads_eq_encBuf (mcode : Nat) (e : Enc) (ps : List (List Nat))
    (hps : ∀ p ∈ ps, p ≠ [] ∧ p.length ≤ WSIZE) :
    encReads mcode e ps = encBuf mcode e ps.flatten := by
  induction ps generalizing e with
  | nil => simp [encReads, encBuf]
  | cons p ps ih =>
    have hp := hps p (List.mem_cons_self _ _)
    have hlen : p.length ≠ 0 := fun h => hp.1 (List.length_eq_zero.mp h)
    have hw := encWhile_eq_encBuf mcode p hp.2 p.length 0 e (by omega)
    rw [List.drop_zero] at hw
    rw [encReads, if_neg hlen, hw, List.flatten_cons, encBuf_append]
    dsimp only
    rw [ih _ (fun q hq => hps q (List.mem_cons_of_mem _ hq))]

/-- Every read returned by `fread` holds at least one byte and at most `WSIZE`. -/
theorem freads_bounds (k : Nat) (S : List Nat) :
    ∀ p ∈ freads k S, p ≠ [] ∧ p.length ≤ WSIZE := by
  induction k generalizing S with
  | zero => simp [freads]
  | succ k ih =>
    unfold freads
    split
    · simp
    · rename_i h0
      intro p hp
      rcases List.mem_cons.mp hp with rfl | hp
      · have hW : 0 < WSIZE := by decide
        refine ⟨?_, by rw [List.length_take]; omega⟩
        intro h
        have hl := congrArg List.length h
        rw [List.length_take, List.length_nil] at hl
        have hpos : 0 < S.length := List.length_pos.mpr h0
        omega
      · exact ih _ p hp

theorem freads_flatten (k : Nat) (S : List Nat) (h : S.length ≤ k) :
    (freads k S).flatten = S := by
  induction k generalizing S with
  | zero =>
    have : S = [] := List.length_eq_zero.mp (by omega)
    simp [freads, this]
  | succ k ih =>
    unfold freads
    split
    · rename_i h0; simp [h0]
    · rename_i h0
      have hpos : 0 < S.length := List.length_pos.mpr h0
      have hW : 0 < WSIZE := by decide
      rw [List.flatten_cons, ih _ (by rw [List.length_drop]; omega), List.take_append_drop]

theorem compressCalls_freads (mcode : Nat) (S : List Nat) :
    compressCalls mcode (freads S.length S) = encRest mcode Enc.init S := by
  simp [compressCalls, encRest, encReads_eq_encBuf mcode Enc.init _ (freads_bounds _ S),
    freads_flatten S.length S le_rfl]

/-- Once `decompress` has stopped, following it for more passes changes nothing. -/
theorem decLoop_stable (vc : VLCodec) (mcode : Nat) (k : Nat) (s : St) (bs : List Bool)
    (h : (decLoop vc mcode k s bs).2 ≠ Stop.running) (j : Nat) :
    decLoop vc mcode (k + j) s bs = decLoop vc mcode k s bs := by
  induction k generalizing s bs with
  | zero => simp [decLoop] at h
  | succ k ih =>
    rw [show k + 1 + j = (k + j) + 1 by omega]
    simp only [decLoop] at h ⊢
    split
    · rfl
    · rename_i c s2 bs2 hl
      simp only [hl] at h
      rw [ih _ _ h]

theorem decLoop_stable_le (vc : VLCodec) (mcode : Nat) {k k' : Nat} (s : St) (bs : List Bool)
    (h : (decLoop vc mcode k s bs).2 ≠ Stop.running) (hk : k ≤ k') :
    decLoop vc mcode k' s bs = decLoop vc mcode k s bs := by
  obtain ⟨j, rfl⟩ : ∃ j, k' = k + j := ⟨k' - k, by omega⟩
  exact decLoop_stable vc mcode k s bs h j

/-- The loop of `decompress`, run from the fresh state on what `compress` writes for an
input `S` shorter than `2^31` bytes, delivers `S` and stops on the end-of-stream marker
within as many passes as there are bits. -/
theorem decLoop_compress (vc : VLCodec) (hv : vc.Inverts) (mcode : Nat) (S : List Nat)
    (hS : ∀ c ∈ S, c < 256) (hlen : S.length < 2 ^ 31) (pad : List Bool) (k : Nat)
    (hk : (compress vc mcode S).length ≤ k) :
    decLoop vc mcode k St.init (compress vc mcode S ++ pad) = (S, Stop.eos) := by
  unfold compress at *
  rw [compressCalls_freads] at *
  have h := decLoop_encRest vc hv mcode S Enc.init St.init pad k hS
    (by show 0 + S.length < 2 ^ 32; omega) St.init_inv rfl hk
  simpa [Enc.init, replay] using h

/-! ### Predicted runs -/

theorem encMatchUpdate_w_prev (mcode : Nat) (s : St) (c : Nat) :
    (encMatchUpdate mcode s c).w = s.w ∧ (encMatchUpdate mcode s c).prev = s.prev := by
  unfold encMatchUpdate
  split <;> exact ⟨rfl, rfl⟩

theorem encLiteral_w_prev (mcode : Nat) (s : St) (c : Nat) :
    (encLiteral mcode s c).1.w = s.w ∧ (encLiteral mcode s c).1.prev = s.prev := by
  unfold encLiteral
  split <;> exact ⟨rfl, rfl⟩

/-- The context advances by the byte processed, matched or not. -/
theorem encStep_prev (mcode : Nat) (e : Enc) (c : Nat) :
    (encStep mcode e c).1.s.prev = advance e.s.prev c := by
  by_cases hm : e.s.w e.s.prev = c
  · rw [encStep_match mcode e c hm]
    simp [(encMatchUpdate_w_prev mcode e.s c).2]
  · rw [encStep_literal mcode e c hm]
    simp [(encLiteral_w_prev mcode e.s c).2]

/-- After a byte has been processed the prediction for its context is that byte. -/
theorem encStep_w (mcode : Nat) (e : Enc) (c : Nat) :
    (encStep mcode e c).1.s.w e.s.prev = c := by
  by_cases hm : e.s.w e.s.prev = c
  · rw [encStep_match mcode e c hm]
    simp [(encMatchUpdate_w_prev mcode e.s c).1, hm]
  · rw [encStep_literal mcode e c hm]
    show Function.update (encLiteral mcode e.s c).1.w (encLiteral mcode e.s c).1.prev c
      e.s.prev = c
    rw [(encLiteral_w_prev mcode e.s c).2, Function.update_same]

/-- Where the context is a fixed point of `advance` and predicts `x`, a run of `x` is
matched throughout: nothing is written and the run counter grows by its length, modulo
`2^32`. -/
theorem encBuf_fixed (mcode : Nat) (x n : Nat) (e : Enc) (hw : e.s.w e.s.prev = x)
    (hp : advance e.s.prev x = e.s.prev) (hb : e.b < 2 ^ 32) :
    (encBuf mcode e (List.replicate n x)).2 = []
      ∧ (encBuf mcode e (List.replicate n x)).1.b = (e.b + n) % 2 ^ 32 := by
  induction n generalizing e with
  | zero =>
    refine ⟨by simp [encBuf], ?_⟩
    rw [Nat.add_zero, Nat.mod_eq_of_lt hb]
    simp [encBuf]
  | succ n ih =>
    have hstep := encStep_match mcode e x hw
    have hprev := encStep_prev mcode e x
    have hwx := encStep_w mcode e x
    have hw' : (encStep mcode e x).1.s.w (encStep mcode e x).1.s.prev = x := by
      rw [hprev, hp]; exact hwx
    have hp' : advance (encStep mcode e x).1.s.prev x = (encStep mcode e x).1.s.prev := by
      rw [hprev, hp, hp]
    have h3 : (encStep mcode e x).1.b = (e.b + 1) % 2 ^ 32 := by rw [hstep]
    have := ih (encStep mcode e x).1 hw' hp' (by rw [h3]; exact Nat.mod_lt _ (by norm_num))
    have h2 : (encStep mcode e x).2 = [] := by rw [hstep]
    rw [List.replicate_succ, encBuf]
    refine ⟨?_, ?_⟩
    · simp only [this.1, h2, List.append_nil]
    · simp only [this.2, h3]
      omega

/-- From the initial state a run of zero bytes is predicted throughout, the context
staying 0: when its length is a multiple of `2^32` the run counter is back at 0 at the end
and `compress` writes what it writes for the empty input. -/
theorem compress_zeros (vc : VLCodec) (mcode n : Nat) (h : n % 2 ^ 32 = 0) :
    compress vc mcode (List.replicate n 0) = compress vc mcode [] := by
  have hf := encBuf_fixed mcode 0 n Enc.init rfl rfl (by simp [Enc.init])
  have hb : (encBuf mcode Enc.init (List.replicate n 0)).1.b = 0 := by
    rw [hf.2]
    show (0 + n) % 2 ^ 32 = 0
    rw [Nat.zero_add, h]
  unfold compress
  rw [compressCalls_freads, compressCalls_freads, encRest, hf.1, hb, List.nil_append,
    encRest_nil]
  rfl

/-! ### Round trip -/

/-- Claim C1, round trip.  For every byte sequence `S` shorter than `2^31` bytes (the
empty one included) and every mode, `decompress` run from the fresh state on the bits
`compress` writes for `S`, followed by any padding, stops on the end-of-stream marker,
within as many passes as there are bits, and has output exactly `S`, provided the
variable-length codec is invertible.  Not so for every `S`: the run counter `b` of
`compress` is an `int`, and on the input made of `2^32` zero bytes, every one of them
predicted, it is back at 0 when the input ends; `compress` writes what it writes for the
empty input, and `decompress` delivers no byte. -/
theorem decompress_compress (vc : VLCodec) (hv : vc.Inverts) :
    (∀ (mcode : Nat) (S : List Nat), (∀ c ∈ S, c < 256) → S.length < 2 ^ 31 →
      ∀ (pad : List Bool) (k : Nat), (compress vc mcode S).length ≤ k →
        decompress vc mcode k (compress vc mcode S ++ pad) = (S, Stop.eos))
    ∧ compress vc mPPP (List.replicate (2 ^ 32) 0) = compress vc mPPP []
    ∧ (∀ (pad : List Bool) (k : Nat), 10 ≤ k →
        decompress vc mPPP k (compress vc mPPP (List.replicate (2 ^ 32) 0) ++ pad)
          = ([], Stop.eos))
    ∧ List.replicate (2 ^ 32) 0 ≠ ([] : List Nat) := by
  have hz := compress_zeros vc mPPP (2 ^ 32) (Nat.mod_self _)
  refine ⟨fun mcode S hS hlen pad k hk => decLoop_compress vc hv mcode S hS hlen pad k hk,
    hz, ?_, ?_⟩
  · intro pad k hk
    rw [hz]
    exact decLoop_compress vc hv mPPP [] (by simp) (by simp) pad k hk
  · intro h
    have := congrArg List.length h
    rw [List.length_replicate] at this
    simp at this

set_option maxRecDepth 100000 in
theorem decompress_compress_witness :
    refCodec.Inverts ∧ (∀ c ∈ [255, 7, 7, 0, 0], c < 256)
    ∧ [255, 7, 7, 0, 0].length < 2 ^ 31 ∧
    (compress refCodec mVLCODE [255, 7, 7, 0, 0]).length ≤ 64 ∧
    decompress refCodec mVLCODE 64 (compress refCodec mVLCODE [255, 7, 7, 0, 0] ++ [false, false])
      = ([255, 7, 7, 0, 0], Stop.eos) :=
  ⟨refCodec_inverts, by decide, by decide, by decide,
    (decompress_compress refCodec refCodec_inverts).1 mVLCODE [255, 7, 7, 0, 0] (by decide)
      (by decide) _ 64 (by decide)⟩

/-! ### Raw mode -/

/-- Claim C2, raw-mode sentinel disambiguation.  In mode 1 the literal `c` is written as the
8 bits of `c`, followed by one 0 bit exactly when `c = 255`, and the tables are left
alone; the end of the stream is written as the 8 bits of 255 followed by a 1 bit.  On
reading the 8-bit value `v` the decoder stops exactly when `v = 255` and the next bit is
1; otherwise it delivers `v` as a data byte, having consumed the next bit only when
`v = 255`.  The inputs `[0xFF]` and `[0xFF, 0xFF, 0xFF]` round-trip in raw mode. -/
theorem raw_sentinel (vc : VLCodec) (hv : vc.Inverts) (s : St) (c v : Nat) (hv8 : v < 256)
    (bit : Bool) (rest : List Bool) :
    (render vc (encLiteral mPPP s c).2 = put_nbits c 8 ++ (if c = 255 then [false] else [])
      ∧ (encLiteral mPPP s c).1 = s)
    ∧ (∀ b, render vc (encEOF mPPP b) = render vc (flushRun b) ++ (put_nbits 255 8 ++ [true]))
    ∧ (decLiteral vc mPPP s (put_nbits v 8 ++ bit :: rest) = Lit.stop Stop.eos
        ↔ v = 255 ∧ bit = true)
    ∧ (v ≠ 255 →
        decLiteral vc mPPP s (put_nbits v 8 ++ bit :: rest) = Lit.byte v s (bit :: rest))
    ∧ (v = 255 → bit = false →
        decLiteral vc mPPP s (put_nbits v 8 ++ bit :: rest) = Lit.byte v s rest)
    ∧ (∀ k pad, (compress vc mPPP [255]).length ≤ k →
        decompress vc mPPP k (compress vc mPPP [255] ++ pad) = ([255], Stop.eos))
    ∧ (∀ k pad, (compress vc mPPP [255, 255, 255]).length ≤ k →
        decompress vc mPPP k (compress vc mPPP [255, 255, 255] ++ pad)
          = ([255, 255, 255], Stop.eos)) := by
  have hg := get_nbits_put_nbits 8 v (bit :: rest) (by simpa using hv8)
  refine ⟨⟨?_, ?_⟩, ?_, ?_, ?_, ?_, ?_, ?_⟩
  · by_cases hc : c = 255 <;> simp [encLiteral, render, Put.bits, EOF_PPP, hc]
  · simp [encLiteral]
  · intro b
    simp [encEOF, render, Put.bits, EOF_PPP]
  · by_cases h255 : v = 255
    · subst h255
      cases bit <;> simp [decLiteral, hg, get_bit, EOF_PPP]
    · simp [decLiteral, hg, EOF_PPP, h255]
  · intro h255
    simp [decLiteral, hg, EOF_PPP, h255]
  · intro h255 hb
    subst h255 hb
    simp [decLiteral, hg, get_bit, EOF_PPP]
  · intro k pad hk
    exact decLoop_compress vc hv mPPP [255] (by decide) (by simp) pad k hk
  · intro k pad hk
    exact decLoop_compress vc hv mPPP [255, 255, 255] (by decide) (by simp) pad k hk

theorem raw_sentinel_witness :
    refCodec.Inverts ∧ 255 < 256 ∧
    (decLiteral refCodec mPPP St.init (put_nbits 255 8 ++ true :: []) = Lit.stop Stop.eos
        ↔ 255 = 255 ∧ true = true)
    ∧ decompress refCodec mPPP 20 (compress refCodec mPPP [255] ++ [false, false, false, false])
        = ([255], Stop.eos) :=
  have h := raw_sentinel refCodec refCodec_inverts St.init 255 255 (by decide) true []
  ⟨refCodec_inverts, by decide, h.2.2.1, h.2.2.2.2.2.1 20 _ (by decide)⟩

/-! ### Rank mode: positions and the end marker -/

theorem encMatchUpdate_inv (mcode : Nat) {s : St} (h : s.Inv) {c : Nat} (hc : c < 256) :
    (encMatchUpdate mcode s c).Inv := by
  rw [encMatchUpdate_eq mcode h c]
  exact decMatchUpdate_inv mcode h hc

/-- One pass of the encoder keeps the invariant of the shared state. -/
theorem encStep_inv (mcode : Nat) {e : Enc} (h : e.s.Inv) {c : Nat} (hc : c < 256) :
    (encStep mcode e c).1.s.Inv := by
  by_cases hm : e.s.w e.s.prev = c
  · rw [encStep_match mcode e c hm]
    have := encMatchUpdate_inv mcode h hc
    exact ⟨this.perm, this.rank, this.bytes⟩
  · rw [encStep_literal mcode e c hm]
    have := encLiteral_inv mcode h hc
    exact ⟨this.perm, this.rank, update_bytes this.bytes _ hc⟩

/-- Every state reached by the encoder on bytes satisfies the invariant. -/
theorem encBuf_inv (mcode : Nat) (S : List Nat) (hS : ∀ c ∈ S, c < 256) {e : Enc}
    (h : e.s.Inv) :
    (encBuf mcode e S).1.s.Inv := by
  induction S generalizing e with
  | nil => exact h
  | cons c S ih =>
    rw [encBuf]
    exact ih (fun x hx => hS x (List.mem_cons_of_mem _ hx))
      (encStep_inv mcode h (hS c (List.mem_cons_self _ _)))

/-- In a state satisfying the invariant the position of a byte in the list is below 256. -/
theorem mtf_fst_lt_256 {s : St} (h : s.Inv) {c : Nat} (hc : c < 256) :
    (mtf c s.order).1 < 256 := by
  have := mtf_fst_lt (h.mem hc)
  rwa [h.length] at this

theorem flushRun_no_rank (b n : Nat) : Put.vlcode n BSIZE ∉ flushRun b := by
  unfold flushRun
  split <;> simp [BSIZE]

/-- In rank mode, a value passed to `put_vlcode(.., BSIZE)` during one pass is a position
in the list. -/
theorem encStep_rank_lt {e : Enc} (h : e.s.Inv) {c : Nat} (hc : c < 256) (n : Nat)
    (hn : Put.vlcode n BSIZE ∈ (encStep mVLCODE e c).2) : n < 256 := by
  by_cases hm : e.s.w e.s.prev = c
  · rw [encStep_match mVLCODE e c hm] at hn
    simp at hn
  · rw [encStep_literal mVLCODE e c hm, List.mem_append] at hn
    rcases hn with hn | hn
    · exact absurd hn (flushRun_no_rank _ _)
    · have : (encLiteral mVLCODE e.s c).2 = [Put.vlcode (mtf c e.s.order).1 BSIZE] := by
        simp [encLiteral, mVLCODE, mPPP]
      rw [this] at hn
      simp only [List.mem_singleton, Put.vlcode.injEq, and_true] at hn
      rw [hn]
      exact mtf_fst_lt_256 h hc

theorem encBuf_rank_lt (S : List Nat) (hS : ∀ c ∈ S, c < 256) {e : Enc} (h : e.s.Inv) (n : Nat)
    (hn : Put.vlcode n BSIZE ∈ (encBuf mVLCODE e S).2) : n < 256 := by
  induction S generalizing e with
  | nil => simp [encBuf] at hn
  | cons c S ih =>
    have hc := hS c (List.mem_cons_self _ _)
    rw [encBuf, List.mem_append] at hn
    rcases hn with hn | hn
    · exact encStep_rank_lt h hc n hn
    · exact ih (fun x hx => hS x (List.mem_cons_of_mem _ hx)) (encStep_inv mVLCODE h hc) hn

/-- Claim C3, the rank-mode end marker is never confusable with a literal.  In mode 2, in
every state reached by `compress` on a prefix `P` of the input, the position `mtf(c)` of
the next byte `c` is below 256, hence different from `EOF_VLC = 256`; the calls made
by `compress` are some calls in which every value passed to `put_vlcode(.., BSIZE)` is
below 256, followed by the single call `put_vlcode(EOF_VLC, BSIZE)`, which is thus made
exactly once and last. -/
theorem rank_eof_not_literal (S : List Nat) (hS : ∀ c ∈ S, c < 256) :
    (∀ P c T, S = P ++ c :: T →
      (mtf c (encBuf mVLCODE Enc.init P).1.s.order).1 < 256
      ∧ (mtf c (encBuf mVLCODE Enc.init P).1.s.order).1 ≠ EOF_VLC)
    ∧ (∃ front, compressCalls mVLCODE (freads S.length S) = front ++ [Put.vlcode EOF_VLC BSIZE]
        ∧ ∀ n, Put.vlcode n BSIZE ∈ front → n < 256)
    ∧ (compressCalls mVLCODE (freads S.length S)).count (Put.vlcode EOF_VLC BSIZE) = 1 := by
  have hfront : ∀ n, Put.vlcode n BSIZE ∈
      (encBuf mVLCODE Enc.init S).2 ++ flushRun (encBuf mVLCODE Enc.init S).1.b → n < 256 := by
    intro n hn
    rw [List.mem_append] at hn
    rcases hn with hn | hn
    · exact encBuf_rank_lt S hS (e := Enc.init) St.init_inv n hn
    · exact absurd hn (flushRun_no_rank _ _)
  have hcalls : compressCalls mVLCODE (freads S.length S) =
      ((encBuf mVLCODE Enc.init S).2 ++ flushRun (encBuf mVLCODE Enc.init S).1.b)
        ++ [Put.vlcode EOF_VLC BSIZE] := by
    rw [compressCalls_freads]
    simp [encRest, encEOF, mVLCODE, mPPP]
  refine ⟨?_, ⟨_, hcalls, hfront⟩, ?_⟩
  · intro P c T hPT
    have hP : ∀ x ∈ P, x < 256 := fun x hx => hS x (by rw [hPT]; simp [hx])
    have hc : c < 256 := hS c (by rw [hPT]; simp)
    have := mtf_fst_lt_256 (encBuf_inv mVLCODE P hP (e := Enc.init) St.init_inv) hc
    exact ⟨this, by unfold EOF_VLC; omega⟩
  · rw [hcalls, List.count_append]
    have h0 : List.count (Put.vlcode EOF_VLC BSIZE)
        ((encBuf mVLCODE Enc.init S).2 ++ flushRun (encBuf mVLCODE Enc.init S).1.b) = 0 := by
      rw [List.count_eq_zero]
      intro hmem
      have := hfront EOF_VLC hmem
      simp [EOF_VLC] at this
    rw [h0]
    simp

set_option maxRecDepth 100000 in
theorem rank_eof_not_literal_witness :
    (∀ c ∈ [7, 7, 9, 7], c < 256) ∧
    (compressCalls mVLCODE (freads 4 [7, 7, 9, 7])).count (Put.vlcode EOF_VLC BSIZE) = 1 :=
  ⟨by decide, (rank_eof_not_literal [7, 7, 9, 7] (by decide)).2.2⟩

/-! ### The branches of `main`: header, mode byte, empty input -/

/-- Claim C4, header fidelity.  On the decode path of `main` the mode used by `decompress`
is the fourth byte of the file stamp, whatever value `mcode0` the parser left in `mcode`;
the parser leaves `mPPP` for the command `d`; the stamp written in mode 2 carries 2; so a
stream written by `compress` in mode 2 is decoded with the rank literal coder, and gives
back the input when this is shorter than `2^31` bytes.  Not so for every input: for the
`2^32` zero bytes on which the run counter of `compress` is back at 0 at the end, the file
written in mode 2 is the file of the empty input, and the decode path delivers no byte. -/
theorem header_fidelity (vc : VLCodec) (hv : vc.Inverts) (mcode0 : Nat) :
    (∀ fstamp k bs,
      mainDecompress vc mcode0 fstamp k bs = decompress vc (fstamp.getD 3 0) k bs)
    ∧ parseArgs ['d'] = some (Mode.DECOMPRESS, mPPP)
    ∧ (∀ S, (mainCompress vc mVLCODE S).1.getD 3 0 = mVLCODE)
    ∧ (∀ S k bs, mainDecompress vc mcode0 (mainCompress vc mVLCODE S).1 k bs
        = decompress vc mVLCODE k bs)
    ∧ (∀ S : List Nat, (∀ c ∈ S, c < 256) → S.length < 2 ^ 31 → ∀ k pad,
        (mainCompress vc mVLCODE S).2.length ≤ k →
        mainDecompress vc mcode0 (mainCompress vc mVLCODE S).1 k
          ((mainCompress vc mVLCODE S).2 ++ pad) = (S, Stop.eos))
    ∧ mainCompress vc mVLCODE (List.replicate (2 ^ 32) 0) = mainCompress vc mVLCODE []
    ∧ (∀ k pad, (mainCompress vc mVLCODE []).2.length ≤ k →
        mainDecompress vc mcode0 (mainCompress vc mVLCODE (List.replicate (2 ^ 32) 0)).1 k
          ((mainCompress vc mVLCODE (List.replicate (2 ^ 32) 0)).2 ++ pad)
            = ([], Stop.eos)) := by
  have hz := compress_zeros vc mVLCODE (2 ^ 32) (Nat.mod_self _)
  have hm :
      mainCompress vc mVLCODE (List.replicate (2 ^ 32) 0) = mainCompress vc mVLCODE [] := by
    unfold mainCompress
    rw [hz]
  refine ⟨fun _ _ _ => rfl, by decide, fun _ => rfl, fun _ _ _ => rfl, ?_, hm, ?_⟩
  · intro S hS hlen k pad hk
    exact decLoop_compress vc hv mVLCODE S hS hlen pad k hk
  · intro k pad hk
    rw [hm]
    exact decLoop_compress vc hv mVLCODE [] (by simp) (by simp) pad k hk

set_option maxRecDepth 100000 in
theorem header_fidelity_witness :
    refCodec.Inverts ∧ (∀ c ∈ [1, 2, 1, 2, 1, 2], c < 256)
    ∧ [1, 2, 1, 2, 1, 2].length < 2 ^ 31 ∧
    mainDecompress refCodec mPPP (mainCompress refCodec mVLCODE [1, 2, 1, 2, 1, 2]).1 64
      ((mainCompress refCodec mVLCODE [1, 2, 1, 2, 1, 2]).2 ++ [false])
        = ([1, 2, 1, 2, 1, 2], Stop.eos) :=
  ⟨refCodec_inverts, by decide, by decide,
    (header_fidelity refCodec refCodec_inverts mPPP).2.2.2.2.1 [1, 2, 1, 2, 1, 2] (by decide)
      (by decide) 64 [false] (by decide)⟩

set_option maxRecDepth 100000 in
/-- Claim C5, as the claim states it, fails: a file whose mode byte is 3 is not rejected.
The decode path reads the bits and writes the byte they encode, then stops on the
end-of-stream marker. -/
theorem format_not_rejected :
    mainDecompress refCodec mPPP [0x4C, 0x5A, 0x50, 3] 2
      [false, true, true, true, false, false, false, true, false, false, true, false, true,
       true, true, true, true, false, false, false, false, false, true, false, false, false]
      = ([65], Stop.eos) := by
  decide

theorem decMatchUpdate_of_ne (mcode : Nat) (h : mcode ≠ mVLCODE) (s : St) (c : Nat) :
    decMatchUpdate mcode s c = s := by
  simp [decMatchUpdate, h]

theorem decLiteral_of_ne (vc : VLCodec) (mcode : Nat) (h : mcode ≠ mPPP) (s : St)
    (bs : List Bool) : decLiteral vc mcode s bs = decLiteral vc mVLCODE s bs := by
  have h2 : mVLCODE ≠ mPPP := by decide
  simp only [decLiteral, h, h2, if_false]

/-- Claim C5, amended: the decode path does not validate the mode byte.  For every stamp
whose fourth byte is neither 1 nor 2 it reports no format error and runs `decompress`
with `mcode` set to that byte; literals are then read with the rank coder, as in mode 2,
and the tables are left alone on a matched byte, as in mode 1. -/
theorem mode_byte_not_validated (vc : VLCodec) (mcode0 : Nat)
    (fstamp : List Nat) (h1 : fstamp.getD 3 0 ≠ mPPP) (h2 : fstamp.getD 3 0 ≠ mVLCODE) :
    (∀ k bs, mainDecompress vc mcode0 fstamp k bs = decLoop vc (fstamp.getD 3 0) k St.init bs)
    ∧ (∀ s bs, decLiteral vc (fstamp.getD 3 0) s bs = decLiteral vc mVLCODE s bs)
    ∧ (∀ s c, decMatchUpdate (fstamp.getD 3 0) s c = decMatchUpdate mPPP s c) := by
  refine ⟨fun _ _ => rfl, fun s bs => decLiteral_of_ne vc _ h1 s bs, ?_⟩
  intro s c
  rw [decMatchUpdate_of_ne _ h2, decMatchUpdate_of_ne _ (by decide)]

theorem mode_byte_not_validated_witness :
    [0x4C, 0x5A, 0x50, 3].getD 3 0 ≠ mPPP
    ∧ [0x4C, 0x5A, 0x50, 3].getD 3 0 ≠ mVLCODE
    ∧ (∀ s c, decMatchUpdate ([0x4C, 0x5A, 0x50, 3].getD 3 0) s c = decMatchUpdate mPPP s c) :=
  ⟨by decide, by decide,
    (mode_byte_not_validated refCodec mPPP [0x4C, 0x5A, 0x50, 3] (by decide) (by decide)).2.2⟩

/-- Claim C8, empty-input minimality: for the empty input the compress branch of `main`
writes the stamp `'L','Z','P'`, mode, and then one 0 flag bit followed by the
end-of-stream marker and nothing else: in mode 1 the bit 0, eight 1 bits and a 1 bit, ten
bits in all; in mode 2 the bit 0 followed by the code `put_vlcode(256, 3)`. -/
theorem empty_input_minimal (vc : VLCodec) :
    mainCompress vc mPPP []
      = (['L'.toNat, 'Z'.toNat, 'P'.toNat, 1],
          [false, true, true, true, true, true, true, true, true, true])
    ∧ (mainCompress vc mPPP []).2.length = 10
    ∧ mainCompress vc mVLCODE []
      = (['L'.toNat, 'Z'.toNat, 'P'.toNat, 2], false :: vc.put_vlcode 256 3)
    ∧ compressCalls mPPP [] = [Put.ZERO, Put.nbits EOF_PPP 8, Put.ONE]
    ∧ compressCalls mVLCODE [] = [Put.ZERO, Put.vlcode EOF_VLC BSIZE] := by
  refine ⟨rfl, rfl, ?_, rfl, rfl⟩
  simp [mainCompress, compress, freads, compressCalls, encReads, Enc.init, encEOF, flushRun,
    render, Put.bits, fileStamp, mVLCODE, mPPP, EOF_VLC, BSIZE]

/-! ### The command parser -/

/-- Once the mode letter and a digit have been read, nothing more is accepted. -/
theorem parseCmd_compress_digit (m : Nat) (hm : m ≠ 0) (s : List Char)
    (hs : ∀ ch ∈ s, ch ≠ NUL) : (parseCmd .COMPRESS m s).isSome ↔ s = [] := by
  cases s with
  | nil => simp [parseCmd]
  | cons ch rest =>
    have hch : ch ≠ NUL := hs ch (List.mem_cons_self _ _)
    simp [parseCmd, hm, hch]

/-- After `d` nothing more is accepted. -/
theorem parseCmd_decompress (m : Nat) (s : List Char)
    (hs : ∀ ch ∈ s, ch ≠ NUL) : (parseCmd .DECOMPRESS m s).isSome ↔ s = [] := by
  cases s with
  | nil => simp [parseCmd]
  | cons ch rest =>
    have hch : ch ≠ NUL := hs ch (List.mem_cons_self _ _)
    simp [parseCmd, hch]

/-- After `c` one digit, 1 or 2, is accepted. -/
theorem parseCmd_compress (s : List Char) (hs : ∀ ch ∈ s, ch ≠ NUL) :
    (parseCmd .COMPRESS 0 s).isSome ↔ s = [] ∨ s = ['1'] ∨ s = ['2'] := by
  cases s with
  | nil => simp [parseCmd]
  | cons ch rest =>
    have hch : ch ≠ NUL := hs ch (List.mem_cons_self _ _)
    have hrest : ∀ x ∈ rest, x ≠ NUL := fun x hx => hs x (List.mem_cons_of_mem _ hx)
    have h1 := parseCmd_compress_digit mPPP (by decide) rest hrest
    have h2 := parseCmd_compress_digit mVLCODE (by decide) rest hrest
    by_cases c1 : ch = 'c'
    · subst c1; simp [parseCmd]
    by_cases c2 : ch = 'd'
    · subst c2; simp [parseCmd]
    by_cases c3 : ch = '1'
    · subst c3; simp [parseCmd, h1]
    by_cases c4 : ch = '2'
    · subst c4; simp [parseCmd, h2]
    simp [parseCmd, c1, c2, c3, c4, hch]

/-- The command strings with which the parser loop of `main` is left without a call of
`usage()`: the four commands of the usage text, and the empty string. -/
theorem parseArgs_isSome_iff (s : List Char) (hs : ∀ ch ∈ s, ch ≠ NUL) :
    (parseArgs s).isSome ↔
      s = [] ∨ s = ['c'] ∨ s = ['c', '1'] ∨ s = ['c', '2'] ∨ s = ['d'] := by
  unfold parseArgs
  cases s with
  | nil => simp [parseCmd]
  | cons ch rest =>
    have hch : ch ≠ NUL := hs ch (List.mem_cons_self _ _)
    have hrest : ∀ x ∈ rest, x ≠ NUL := fun x hx => hs x (List.mem_cons_of_mem _ hx)
    have h1 := parseCmd_compress rest hrest
    have h2 := parseCmd_decompress 0 rest hrest
    by_cases c1 : ch = 'c'
    · subst c1; simp [parseCmd, h1]
    by_cases c2 : ch = 'd'
    · subst c2
      cases rest with
      | nil => simp [parseCmd, NUL]
      | cons r rs =>
        have hr : r ≠ NUL := hrest r (List.mem_cons_self _ _)
        simp [parseCmd, hr]
    by_cases c3 : ch = '1'
    · subst c3; simp [parseCmd]
    by_cases c4 : ch = '2'
    · subst c4; simp [parseCmd]
    simp [parseCmd, c1, c2, c3, c4, hch]

/-- Claim C7, command parsing, at the command string the claim fails on: with the empty
string the parser loop is left without a call of `usage()`, `mode` still unset and
`mcode` defaulted to 1, so the files are opened.  The four commands are accepted with the
modes the claim gives, and the other strings it lists are refused. -/
theorem parse_empty_command :
    parseArgs [] = some (Mode.unset, mPPP)
    ∧ parseArgs ['c'] = some (Mode.COMPRESS, mPPP)
    ∧ parseArgs ['c', '1'] = some (Mode.COMPRESS, mPPP)
    ∧ parseArgs ['c', '2'] = some (Mode.COMPRESS, mVLCODE)
    ∧ parseArgs ['d'] = some (Mode.DECOMPRESS, mPPP)
    ∧ parseArgs ['1'] = none
    ∧ parseArgs ['c', '1', '2'] = none
    ∧ parseArgs ['c', 'c'] = none
    ∧ parseArgs ['d', '1'] = none
    ∧ parseArgs ['d', 'c'] = none
    ∧ parseArgs ['x'] = none := by
  decide

/-! ### The event log -/

theorem decRunLen_flushRun (vc : VLCodec) (hv : vc.Inverts) (b : Nat) (rest : List Bool) :
    decRunLen vc (render vc (flushRun b) ++ rest) = b := by
  unfold flushRun
  by_cases hb : b = 0
  · subst hb
    simp [render, Put.bits, decRunLen, get_bit]
  · have e : b - 1 + 1 = b := by omega
    simp [hb, render, Put.bits, decRunLen, get_bit, hv (b - 1) 0 rest, e]

/-- The value read for a literal is the value the encoder wrote. -/
theorem decLitValue_encLiteral (vc : VLCodec) (hv : vc.Inverts) (mcode : Nat) (s : St)
    {c : Nat} (hc : c < 256) (rest : List Bool) :
    (if mcode = mPPP then (get_nbits 8 (render vc (encLiteral mcode s c).2 ++ rest)).1
      else (vc.get_vlcode BSIZE (render vc (encLiteral mcode s c).2 ++ rest)).1)
      = (if mcode = mPPP then c else (mtf c s.order).1) := by
  by_cases hm : mcode = mPPP
  · simp only [hm, if_true, encLiteral, render, List.flatMap_cons, Put.bits, List.append_assoc]
    rw [get_nbits_put_nbits 8 c _ (by simpa using hc)]
  · simp only [hm, if_false, encLiteral, render, List.flatMap_cons, Put.bits,
      List.flatMap_nil, List.append_nil]
    rw [hv]

/-- The log of the encoder is the log of the decoder run on what the encoder writes, as
long as the run counter does not wrap. -/
theorem decLog_encRest (vc : VLCodec) (hv : vc.Inverts) (mcode : Nat) :
    ∀ (S : List Nat) (e : Enc) (s0 : St) (rest : List Bool) (k : Nat),
      (∀ c ∈ S, c < 256) → e.b + S.length < 2 ^ 32 → s0.Inv →
      (replay mcode e.b s0).1 = e.s →
      (render vc (encRest mcode e S)).length ≤ k →
      decLog vc mcode k s0 (render vc (encRest mcode e S) ++ rest) = encLog mcode e S := by
  intro S
  induction S with
  | nil =>
    intro e s0 rest k _ _ _ hsync hk
    have hpos := render_flushRun_length_pos vc e.b
    rw [encRest_nil, encEOF, render_append, List.length_append] at hk
    obtain ⟨k, rfl⟩ : ∃ k', k = k' + 1 := ⟨k - 1, by omega⟩
    rw [encRest_nil, encEOF, render_append, List.append_assoc, decLog,
      decRun_flushRun vc hv, decRunLen_flushRun vc hv]
    simp only [decLiteral_eof vc hv, hsync, encLog]
  | cons c S ih =>
    intro e s0 rest k hS hlen hinv hsync hk
    have hc : c < 256 := hS c (List.mem_cons_self _ _)
    have hS2 : ∀ x ∈ S, x < 256 := fun x hx => hS x (List.mem_cons_of_mem _ hx)
    have hinvE : e.s.Inv := hsync ▸ replay_inv mcode e.b hinv
    rw [List.length_cons] at hlen
    by_cases hm : e.s.w e.s.prev = c
    · have hstep := encStep_match mcode e c hm
      rw [Nat.mod_eq_of_lt (by omega)] at hstep
      rw [encRest_cons, hstep] at hk ⊢
      simp only [List.nil_append] at hk ⊢
      have hrep := replay_succ mcode e.b s0
      simp only [hsync, hm, ← encMatchUpdate_eq mcode hinvE c] at hrep
      have := ih ⟨_, e.b + 1⟩ s0 rest k hS2 (by show e.b + 1 + S.length < 2 ^ 32; omega)
        hinv (by rw [hrep]) hk
      rw [this, encLog]
      simp only [hm, if_true, hstep]
    · have hstep := encStep_literal mcode e c hm
      have hpos := render_flushRun_length_pos vc e.b
      rw [encRest_cons, hstep] at hk ⊢
      simp only [render_append, List.append_assoc, List.length_append] at hk ⊢
      obtain ⟨k, rfl⟩ : ∃ k', k = k' + 1 := ⟨k - 1, by omega⟩
      rw [decLog, decRun_flushRun vc hv, decRunLen_flushRun vc hv]
      simp only [hsync, decLiteral_encLiteral vc hv mcode hinvE hc,
        decLitValue_encLiteral vc hv mcode e.s hc]
      have hinvL := encLiteral_inv mcode hinvE hc
      have hinv2 : St.Inv { (encLiteral mcode e.s c).1 with
          w := Function.update (encLiteral mcode e.s c).1.w (encLiteral mcode e.s c).1.prev c
          prev := advance (encLiteral mcode e.s c).1.prev c } :=
        ⟨hinvL.perm, hinvL.rank, update_bytes hinvL.bytes _ hc⟩
      have hih := ih ⟨_, 0⟩ _ rest k hS2 (by show 0 + S.length < 2 ^ 32; omega) hinv2 rfl
        (by omega)
      rw [hih, encLog]
      simp only [hm, if_false, hstep]

/-- The calls made by the encoder are the calls that write the events of its log. -/
theorem encLog_calls (mcode : Nat) (S : List Nat) (e : Enc) :
    (encLog mcode e S).flatMap (fun ev => Event.calls mcode ev.1) = encRest mcode e S := by
  induction S generalizing e with
  | nil => simp [encLog, encRest_nil, encEOF, Event.calls]
  | cons c S ih =>
    rw [encRest_cons, encLog]
    by_cases hm : e.s.w e.s.prev = c
    · simp only [hm, if_true, ih]
      rw [encStep_match mcode e c hm]
      simp
    · simp only [hm, if_false, List.flatMap_cons, ih]
      rw [encStep_literal mcode e c hm]
      by_cases h1 : mcode = mPPP <;> simp [Event.calls, encLiteral, h1]

theorem replay_length (mcode n : Nat) (s : St) : (replay mcode n s).2.length = n := by
  induction n generalizing s with
  | zero => rfl
  | succ n ih => simp [replay, ih]

theorem decRun_length (vc : VLCodec) (mcode : Nat) (s : St) (bs : List Bool) :
    (decRun vc mcode s bs).2.1.length = decRunLen vc bs := by
  unfold decRun decRunLen
  by_cases h : (get_bit bs).1 = true <;> simp [h, replay_length]

/-- The bytes delivered by the decoder are those its log accounts for. -/
theorem decLog_bytes (vc : VLCodec) (mcode k : Nat) (s : St) (bs : List Bool) :
    ((decLog vc mcode k s bs).map (fun ev => ev.1.bytes)).sum
      = (decLoop vc mcode k s bs).1.length := by
  induction k generalizing s bs with
  | zero => rfl
  | succ k ih =>
    rw [decLog, decLoop]
    cases hl : decLiteral vc mcode (decRun vc mcode s bs).1 (decRun vc mcode s bs).2.2 with
    | stop why =>
      cases why <;> simp [Event.bytes, decRun_length]
    | byte c s2 bs2 =>
      have := ih { s2 with w := Function.update s2.w s2.prev c, prev := advance s2.prev c } bs2
      have e1 : ∀ n, (Event.run n).bytes = n := fun _ => rfl
      have e2 : ∀ v, (Event.lit v).bytes = 1 := fun _ => rfl
      simp only [List.map_cons, List.sum_cons, this, e1, e2, List.length_append,
        List.length_cons, decRun_length]
      omega

/-! ### A run of `2^32` predicted bytes that moves the context -/

theorem St.eq_of_fields {s t : St} (hw : s.w = t.w) (ho : s.order = t.order) (hf : s.f = t.f)
    (hr : s.rank = t.rank) (hp : s.prev = t.prev) : s = t := by
  cases s
  cases t
  simp only [St.mk.injEq]
  exact ⟨hw, ho, hf, hr, hp⟩

/-- A predicted byte in raw mode: nothing is written, the run counter is incremented
modulo `2^32`, and of the shared state only the context changes. -/
theorem encStep_match_raw (e : Enc) (c : Nat) (h : e.s.w e.s.prev = c) :
    (encStep mPPP e c).2 = [] ∧ (encStep mPPP e c).1.b = (e.b + 1) % 2 ^ 32
    ∧ (encStep mPPP e c).1.s.w = e.s.w ∧ (encStep mPPP e c).1.s.order = e.s.order
    ∧ (encStep mPPP e c).1.s.f = e.s.f ∧ (encStep mPPP e c).1.s.rank = e.s.rank
    ∧ (encStep mPPP e c).1.s.prev = advance e.s.prev c := by
  have hs : encMatchUpdate mPPP e.s c = e.s := by simp [encMatchUpdate, mPPP, mVLCODE]
  rw [encStep_match mPPP e c h, hs]
  exact ⟨rfl, rfl, rfl, rfl, rfl, rfl, rfl⟩

/-- In raw mode, where the table predicts the bytes `a`, `b`, `c` in turn and the context
is back where it was after them, any number of repetitions of the three bytes is matched
throughout: nothing is written, the shared state is as before and the run counter has
grown by their number, modulo `2^32`. -/
theorem encBuf_cycle (a b c q : Nat) (e : Enc)
    (h1 : e.s.w e.s.prev = a) (h2 : e.s.w (advance e.s.prev a) = b)
    (h3 : e.s.w (advance (advance e.s.prev a) b) = c)
    (h4 : advance (advance (advance e.s.prev a) b) c = e.s.prev) (hb : e.b < 2 ^ 32) :
    (encBuf mPPP e (List.replicate q [a, b, c]).flatten).2 = []
    ∧ (encBuf mPPP e (List.replicate q [a, b, c]).flatten).1.b = (e.b + 3 * q) % 2 ^ 32
    ∧ (encBuf mPPP e (List.replicate q [a, b, c]).flatten).1.s = e.s := by
  induction q generalizing e with
  | zero =>
    rw [Nat.mul_zero, Nat.add_zero, Nat.mod_eq_of_lt hb]
    exact ⟨rfl, rfl, rfl⟩
  | succ q ih =>
    obtain ⟨a1, a2, a3, a4, a5, a6, a7⟩ := encStep_match_raw e a h1
    have h2' : (encStep mPPP e a).1.s.w (encStep mPPP e a).1.s.prev = b := by
      rw [a3, a7]; exact h2
    obtain ⟨b1, b2, b3, b4, b5, b6, b7⟩ := encStep_match_raw (encStep mPPP e a).1 b h2'
    have h3' : (encStep mPPP (encStep mPPP e a).1 b).1.s.w
        (encStep mPPP (encStep mPPP e a).1 b).1.s.prev = c := by
      rw [b3, b7, a3, a7]; exact h3
    obtain ⟨c1, c2, c3, c4, c5, c6, c7⟩ :=
      encStep_match_raw (encStep mPPP (encStep mPPP e a).1 b).1 c h3'
    have hs : (encStep mPPP (encStep mPPP (encStep mPPP e a).1 b).1 c).1.s = e.s :=
      St.eq_of_fields (by rw [c3, b3, a3]) (by rw [c4, b4, a4]) (by rw [c5, b5, a5])
        (by rw [c6, b6, a6]) (by rw [c7, b7, a7, h4])
    have hih := ih (encStep mPPP (encStep mPPP (encStep mPPP e a).1 b).1 c).1
      (by rw [hs]; exact h1) (by rw [hs]; exact h2) (by rw [hs]; exact h3)
      (by rw [hs]; exact h4) (by rw [c2]; exact Nat.mod_lt _ (by norm_num))
    have h3steps : encBuf mPPP e [a, b, c]
        = ((encStep mPPP (encStep mPPP (encStep mPPP e a).1 b).1 c).1,
            (encStep mPPP e a).2 ++ ((encStep mPPP (encStep mPPP e a).1 b).2
              ++ ((encStep mPPP (encStep mPPP (encStep mPPP e a).1 b).1 c).2 ++ []))) := rfl
    rw [List.replicate_succ, List.flatten_cons, encBuf_append, h3steps]
    dsimp only
    refine ⟨?_, ?_, ?_⟩
    · rw [a1, b1, c1, hih.1]
      rfl
    · rw [hih.2.1, c2, b2, a2]
      omega
    · rw [hih.2.2, hs]


/-- The last entry of the encoder's log is the end-of-stream marker, with the shared state
`compress` ends in. -/
theorem encLog_getLast (mcode : Nat) (S : List Nat) (e : Enc) :
    (encLog mcode e S).getLast? = some (Event.eos, (encBuf mcode e S).1.s) := by
  induction S generalizing e with
  | nil => rfl
  | cons c S ih =>
    rw [encLog, encBuf]
    by_cases hm : e.s.w e.s.prev = c
    · simp only [hm, if_true]
      exact ih _
    · simp only [hm, if_false]
      have := ih (encStep mcode e c).1
      cases hl : encLog mcode (encStep mcode e c).1 S with
      | nil => rw [hl] at this; simp at this
      | cons x xs =>
        rw [hl] at this
        rw [List.getLast?_cons_cons, List.getLast?_cons_cons]
        exact this

set_option maxRecDepth 100000 in
/-- The encoder after the seven bytes `1,2,3,1,2,3,1` in raw mode: each was written as a
literal, no run is pending, and the table predicts `2`, `3`, `1` in the three contexts
that follow one another from the current one. -/
theorem warmup_state :
    (encBuf mPPP Enc.init [1, 2, 3, 1, 2, 3, 1]).1.b = 0
    ∧ (encBuf mPPP Enc.init [1, 2, 3, 1, 2, 3, 1]).1.s.prev = 34913
    ∧ (encBuf mPPP Enc.init [1, 2, 3, 1, 2, 3, 1]).1.s.w 34913 = 2
    ∧ (encBuf mPPP Enc.init [1, 2, 3, 1, 2, 3, 1]).1.s.w 68642 = 3
    ∧ (encBuf mPPP Enc.init [1, 2, 3, 1, 2, 3, 1]).1.s.w 99395 = 1
    ∧ advance 34913 2 = 68642 ∧ advance 68642 3 = 99395 ∧ advance 99395 1 = 34913 := by
  decide

set_option maxRecDepth 100000 in
/-- The eight bytes `1,2,3,1,2,3,1,9` in raw mode: the last one is mispredicted with no run
pending, and `compress` ends with no run pending in the context 68649. -/
theorem warmup_literal :
    (encStep mPPP (encBuf mPPP Enc.init [1, 2, 3, 1, 2, 3, 1]).1 9).2
      = [Put.ZERO, Put.nbits 9 8]
    ∧ (encStep mPPP (encBuf mPPP Enc.init [1, 2, 3, 1, 2, 3, 1]).1 9).1.b = 0
    ∧ (encBuf mPPP Enc.init [1, 2, 3, 1, 2, 3, 1, 9]).1.s.prev = 68649
    ∧ advance 68642 9 = 99401 := by
  decide

/-- Raw mode, the input `1,2,3,1,2,3,1`, then `q` times `2,3,1`, then `2,9`, where the run
of `3 * q + 1` predicted bytes is a multiple of `2^32`: the run counter is back at 0 when
the byte 9 is met, so that `compress` makes the calls it makes for the eight bytes
`1,2,3,1,2,3,1,9`, and ends with no run pending, in the context 99401. -/
theorem encBuf_wrap_cycle (q : Nat) (hq : (3 * q + 1) % 2 ^ 32 = 0) :
    (encBuf mPPP Enc.init
        ([1, 2, 3, 1, 2, 3, 1] ++ ((List.replicate q [2, 3, 1]).flatten ++ [2, 9]))).2
      = (encBuf mPPP Enc.init ([1, 2, 3, 1, 2, 3, 1] ++ [9])).2
    ∧ (encBuf mPPP Enc.init
        ([1, 2, 3, 1, 2, 3, 1] ++ ((List.replicate q [2, 3, 1]).flatten ++ [2, 9]))).1.b
      = (encBuf mPPP Enc.init ([1, 2, 3, 1, 2, 3, 1] ++ [9])).1.b
    ∧ (encBuf mPPP Enc.init
        ([1, 2, 3, 1, 2, 3, 1] ++ ((List.replicate q [2, 3, 1]).flatten ++ [2, 9]))).1.s.prev
      = 99401 := by
  have harith : (3 * q % 2 ^ 32 + 1) % 2 ^ 32 = 0 := by
    rw [Nat.add_mod, Nat.mod_mod] at *
    simpa using hq
  obtain ⟨w1, w2, w3, w4, w5, w6, w7, w8⟩ := warmup_state
  obtain ⟨l1, l2, _, l4⟩ := warmup_literal
  have k1 : (encBuf mPPP Enc.init [1, 2, 3, 1, 2, 3, 1]).1.s.w
      (encBuf mPPP Enc.init [1, 2, 3, 1, 2, 3, 1]).1.s.prev = 2 := by
    rw [w2]; exact w3
  have k2 : (encBuf mPPP Enc.init [1, 2, 3, 1, 2, 3, 1]).1.s.w
      (advance (encBuf mPPP Enc.init [1, 2, 3, 1, 2, 3, 1]).1.s.prev 2) = 3 := by
    rw [w2, w6]; exact w4
  have k3 : (encBuf mPPP Enc.init [1, 2, 3, 1, 2, 3, 1]).1.s.w
      (advance (advance (encBuf mPPP Enc.init [1, 2, 3, 1, 2, 3, 1]).1.s.prev 2) 3) = 1 := by
    rw [w2, w6, w7]; exact w5
  have k4 : advance (advance (advance (encBuf mPPP Enc.init [1, 2, 3, 1, 2, 3, 1]).1.s.prev 2)
      3) 1 = (encBuf mPPP Enc.init [1, 2, 3, 1, 2, 3, 1]).1.s.prev := by
    rw [w2, w6, w7, w8]
  have k5 : (encBuf mPPP Enc.init [1, 2, 3, 1, 2, 3, 1]).1.b < 2 ^ 32 := by
    rw [w1]; norm_num
  have cyc := encBuf_cycle 2 3 1 q (encBuf mPPP Enc.init [1, 2, 3, 1, 2, 3, 1]).1 k1 k2 k3 k4 k5
  obtain ⟨c1, c2, c3⟩ := cyc
  rw [w1, Nat.zero_add] at c2
  -- the byte 2 that ends the run
  have hm : (encBuf mPPP (encBuf mPPP Enc.init [1, 2, 3, 1, 2, 3, 1]).1
      (List.replicate q [2, 3, 1]).flatten).1.s.w
      (encBuf mPPP (encBuf mPPP Enc.init [1, 2, 3, 1, 2, 3, 1]).1
        (List.replicate q [2, 3, 1]).flatten).1.s.prev = 2 := by
    rw [c3, w2]; exact w3
  obtain ⟨m1, m2, m3, _, _, _, m7⟩ := encStep_match_raw _ 2 hm
  rw [c2] at m2
  have m2' : (encStep mPPP (encBuf mPPP (encBuf mPPP Enc.init [1, 2, 3, 1, 2, 3, 1]).1
      (List.replicate q [2, 3, 1]).flatten).1 2).1.b = 0 := by
    rw [m2]; exact harith
  rw [c3, w2, w6] at m7
  rw [c3] at m3
  -- the byte 9
  have hl : (encStep mPPP (encBuf mPPP (encBuf mPPP Enc.init [1, 2, 3, 1, 2, 3, 1]).1
      (List.replicate q [2, 3, 1]).flatten).1 2).1.s.w
      (encStep mPPP (encBuf mPPP (encBuf mPPP Enc.init [1, 2, 3, 1, 2, 3, 1]).1
        (List.replicate q [2, 3, 1]).flatten).1 2).1.s.prev ≠ 9 := by
    rw [m3, m7, w4]; decide
  have hstep := encStep_literal mPPP _ 9 hl
  have hcalls : (encStep mPPP (encStep mPPP (encBuf mPPP
      (encBuf mPPP Enc.init [1, 2, 3, 1, 2, 3, 1]).1
      (List.replicate q [2, 3, 1]).flatten).1 2).1 9).2 = [Put.ZERO, Put.nbits 9 8] := by
    have hlit : ∀ s : St, (encLiteral mPPP s 9).2 = [Put.nbits 9 8] := fun _ => rfl
    rw [hstep]
    dsimp only
    rw [m2', hlit]
    rfl
  have hb9 : (encStep mPPP (encStep mPPP (encBuf mPPP
      (encBuf mPPP Enc.init [1, 2, 3, 1, 2, 3, 1]).1
      (List.replicate q [2, 3, 1]).flatten).1 2).1 9).1.b = 0 := by
    rw [hstep]
  have hp9 : (encStep mPPP (encStep mPPP (encBuf mPPP
      (encBuf mPPP Enc.init [1, 2, 3, 1, 2, 3, 1]).1
      (List.replicate q [2, 3, 1]).flatten).1 2).1 9).1.s.prev = 99401 := by
    rw [encStep_prev, m7, l4]
  have h2 : ∀ e : Enc, encBuf mPPP e [2, 9]
      = ((encStep mPPP (encStep mPPP e 2).1 9).1,
          (encStep mPPP e 2).2 ++ ((encStep mPPP (encStep mPPP e 2).1 9).2 ++ [])) :=
    fun _ => rfl
  have h1 : ∀ e : Enc, encBuf mPPP e [9] = ((encStep mPPP e 9).1, (encStep mPPP e 9).2 ++ []) :=
    fun _ => rfl
  rw [encBuf_append, encBuf_append, h2, encBuf_append, h1]
  dsimp only
  refine ⟨?_, ?_, hp9⟩
  · rw [c1, m1, hcalls, l1]
    rfl
  · rw [hb9, l2]

/-- Claim C9, state determinism.  For every input `S` shorter than `2^31` bytes and every
mode, the log of `decompress` run on what `compress` writes for `S` is the log of
`compress` on `S`: the same events (run length, then literal byte or rank, or end marker)
in the same order, each with the same prediction buffer, list order, frequencies, anchor
and context after it; the log of `compress` is faithful, its events rendered are the bits
written, and so is the log of `decompress`, its events account for the bytes delivered.
Not so for every `S`: in raw mode, on the bytes `1,2,3,1,2,3,1` followed by `2,3,1`
repeated 1431655765 times and by `2,9`, the run of `2^32` predicted bytes leaves the run
counter of `compress` at 0, `compress` writes what it writes for the eight bytes
`1,2,3,1,2,3,1,9`, the log of `decompress` is the log of those eight bytes and not that of
the input, and the two runs end in different contexts, `compress` in 99401 and
`decompress`, like `compress` on the eight bytes, in 68649. -/
theorem state_determinism (vc : VLCodec) (hv : vc.Inverts) :
    (∀ (mcode : Nat) (S : List Nat), (∀ c ∈ S, c < 256) → S.length < 2 ^ 31 →
      ∀ (pad : List Bool) (k : Nat), (compress vc mcode S).length ≤ k →
        decLog vc mcode k St.init (compress vc mcode S ++ pad) = encLog mcode Enc.init S
        ∧ render vc ((encLog mcode Enc.init S).flatMap (fun ev => Event.calls mcode ev.1))
            = compress vc mcode S
        ∧ ((decLog vc mcode k St.init (compress vc mcode S ++ pad)).map
            (fun ev => ev.1.bytes)).sum
            = (decompress vc mcode k (compress vc mcode S ++ pad)).1.length)
    ∧ compress vc mPPP
        ([1, 2, 3, 1, 2, 3, 1] ++ ((List.replicate 1431655765 [2, 3, 1]).flatten ++ [2, 9]))
        = compress vc mPPP [1, 2, 3, 1, 2, 3, 1, 9]
    ∧ (∀ (pad : List Bool) (k : Nat),
        (compress vc mPPP [1, 2, 3, 1, 2, 3, 1, 9]).length ≤ k →
        decLog vc mPPP k St.init (compress vc mPPP
          ([1, 2, 3, 1, 2, 3, 1] ++ ((List.replicate 1431655765 [2, 3, 1]).flatten ++ [2, 9]))
            ++ pad)
          = encLog mPPP Enc.init [1, 2, 3, 1, 2, 3, 1, 9]
        ∧ decLog vc mPPP k St.init (compress vc mPPP
          ([1, 2, 3, 1, 2, 3, 1] ++ ((List.replicate 1431655765 [2, 3, 1]).flatten ++ [2, 9]))
            ++ pad)
          ≠ encLog mPPP Enc.init
            ([1, 2, 3, 1, 2, 3, 1] ++ ((List.replicate 1431655765 [2, 3, 1]).flatten ++ [2, 9])))
    ∧ (encBuf mPPP Enc.init
        ([1, 2, 3, 1, 2, 3, 1] ++ ((List.replicate 1431655765 [2, 3, 1]).flatten ++ [2, 9]))
          ).1.s.prev = 99401
    ∧ (encBuf mPPP Enc.init [1, 2, 3, 1, 2, 3, 1, 9]).1.s.prev = 68649 := by
  have hq : (3 * 1431655765 + 1) % 2 ^ 32 = 0 := by norm_num
  obtain ⟨hc, hb, hp⟩ := encBuf_wrap_cycle 1431655765 hq
  have h8 : [1, 2, 3, 1, 2, 3, 1] ++ [9] = [1, 2, 3, 1, 2, 3, 1, 9] := rfl
  rw [h8] at hc hb
  have hp8 := warmup_literal.2.2.1
  have hcomp : compress vc mPPP
      ([1, 2, 3, 1, 2, 3, 1] ++ ((List.replicate 1431655765 [2, 3, 1]).flatten ++ [2, 9]))
      = compress vc mPPP [1, 2, 3, 1, 2, 3, 1, 9] := by
    unfold compress
    rw [compressCalls_freads, compressCalls_freads, encRest, encRest, hc, hb]
  have hne : encLog mPPP Enc.init [1, 2, 3, 1, 2, 3, 1, 9] ≠ encLog mPPP Enc.init
      ([1, 2, 3, 1, 2, 3, 1] ++ ((List.replicate 1431655765 [2, 3, 1]).flatten ++ [2, 9])) := by
    intro h
    have e1 := encLog_getLast mPPP [1, 2, 3, 1, 2, 3, 1, 9] Enc.init
    have e2 := encLog_getLast mPPP
      ([1, 2, 3, 1, 2, 3, 1] ++ ((List.replicate 1431655765 [2, 3, 1]).flatten ++ [2, 9]))
      Enc.init
    rw [h, e2] at e1
    have e3 := congrArg St.prev (Prod.mk.inj (Option.some.inj e1)).2
    rw [hp, hp8] at e3
    exact absurd e3 (by decide)
  refine ⟨?_, hcomp, ?_, hp, hp8⟩
  · intro mcode S hS hlen pad k hk
    refine ⟨?_, ?_, decLog_bytes vc mcode k St.init _⟩
    · unfold compress at *
      rw [compressCalls_freads] at *
      exact decLog_encRest vc hv mcode S Enc.init St.init pad k hS
        (by show 0 + S.length < 2 ^ 32; omega) St.init_inv rfl hk
    · rw [encLog_calls, compress, compressCalls_freads]
  · intro pad k hk
    have hlog : decLog vc mPPP k St.init (compress vc mPPP [1, 2, 3, 1, 2, 3, 1, 9] ++ pad)
        = encLog mPPP Enc.init [1, 2, 3, 1, 2, 3, 1, 9] := by
      unfold compress at *
      rw [compressCalls_freads] at *
      exact decLog_encRest vc hv mPPP _ Enc.init St.init pad k (by decide) (by decide)
        St.init_inv rfl hk
    rw [hcomp, hlog]
    exact ⟨rfl, hne⟩

set_option maxRecDepth 100000 in
theorem state_determinism_witness :
    refCodec.Inverts ∧ (∀ c ∈ [7, 7, 0, 0, 7], c < 256) ∧ [7, 7, 0, 0, 7].length < 2 ^ 31
    ∧ (compress refCodec mVLCODE [7, 7, 0, 0, 7]).length ≤ 64
    ∧ decLog refCodec mVLCODE 64 St.init (compress refCodec mVLCODE [7, 7, 0, 0, 7] ++ [])
        = encLog mVLCODE Enc.init [7, 7, 0, 0, 7] :=
  ⟨refCodec_inverts, by decide, by decide, by decide,
    ((state_determinism refCodec refCodec_inverts).1 mVLCODE [7, 7, 0, 0, 7] (by decide)
      (by decide) [] 64 (by decide)).1⟩

/-! ### Run amplification -/

set_option maxRecDepth 100000 in
/-- After four equal bytes the context no longer moves: `32^4 = 2^20`. -/
theorem advance_fixed : ∀ x, x < 256 →
    advance (advance (advance (advance (advance 0 x) x) x) x) x
      = advance (advance (advance (advance 0 x) x) x) x := by
  decide

theorem flushRun_render_le (vc : VLCodec)
    (hrun : ∀ n < 1000, (vc.put_vlcode n 0).length ≤ 64) (b : Nat) (hb : b ≤ 1000) :
    (render vc (flushRun b)).length ≤ 65 := by
  unfold flushRun
  by_cases h0 : b = 0
  · simp [h0, render, Put.bits]
  · have := hrun (b - 1) (by omega)
    simp [h0, render, Put.bits]
    omega

theorem encLiteral_render_le (vc : VLCodec)
    (hrank : ∀ r ≤ 256, (vc.put_vlcode r BSIZE).length ≤ 64) (mcode : Nat) {s : St}
    (h : s.Inv) {c : Nat} (hc : c < 256) :
    (render vc (encLiteral mcode s c).2).length ≤ 64 := by
  unfold encLiteral
  by_cases hm : mcode = mPPP
  · by_cases h255 : c = EOF_PPP <;>
      simp [hm, h255, render, Put.bits, put_nbits_length]
  · have := hrank _ (le_of_lt (mtf_fst_lt_256 h hc))
    simpa [hm, render, Put.bits] using this

/-- One pass writes at most a run flush and a literal, and adds at most one to the run
counter. -/
theorem encStep_render_le (vc : VLCodec)
    (hrun : ∀ n < 1000, (vc.put_vlcode n 0).length ≤ 64)
    (hrank : ∀ r ≤ 256, (vc.put_vlcode r BSIZE).length ≤ 64) (mcode : Nat) {e : Enc}
    (h : e.s.Inv) {c : Nat} (hc : c < 256) (hb : e.b ≤ 1000) :
    (render vc (encStep mcode e c).2).length ≤ 129 ∧ (encStep mcode e c).1.b ≤ e.b + 1 := by
  by_cases hm : e.s.w e.s.prev = c
  · rw [encStep_match mcode e c hm]
    exact ⟨by simp [render], Nat.mod_le _ _⟩
  · rw [encStep_literal mcode e c hm]
    have h1 := flushRun_render_le vc hrun e.b hb
    have h2 := encLiteral_render_le vc hrank mcode h hc
    simp only [render_append, List.length_append]
    omega

theorem encBuf_render_le (vc : VLCodec)
    (hrun : ∀ n < 1000, (vc.put_vlcode n 0).length ≤ 64)
    (hrank : ∀ r ≤ 256, (vc.put_vlcode r BSIZE).length ≤ 64) (mcode : Nat) (T : List Nat)
    (hT : ∀ c ∈ T, c < 256) {e : Enc} (h : e.s.Inv) (hb : e.b + T.length ≤ 1000) :
    (render vc (encBuf mcode e T).2).length ≤ 129 * T.length
      ∧ (encBuf mcode e T).1.b ≤ e.b + T.length := by
  induction T generalizing e with
  | nil => simp [encBuf, render]
  | cons c T ih =>
    have hc := hT c (List.mem_cons_self _ _)
    simp only [List.length_cons] at hb ⊢
    have h1 := encStep_render_le vc hrun hrank mcode h hc (by omega)
    have h2 := ih (fun x hx => hT x (List.mem_cons_of_mem _ hx)) (encStep_inv mcode h hc)
      (by omega)
    rw [encBuf]
    simp only [render_append, List.length_append]
    omega

/-- An invertible codec has no empty code word. -/
theorem put_vlcode_ne_nil (vc : VLCodec) (hv : vc.Inverts) (n B : Nat) :
    0 < (vc.put_vlcode n B).length := by
  by_contra hlen
  have hnil : vc.put_vlcode n B = [] := List.length_eq_zero.mp (by omega)
  have h1 := hv n B (vc.put_vlcode (n + 1) B)
  have h2 := hv (n + 1) B []
  rw [hnil, List.nil_append] at h1
  rw [List.append_nil] at h2
  rw [h1] at h2
  simp at h2

theorem replicate_thousand (x : Nat) :
    List.replicate 1000 x = List.replicate 5 x ++ List.replicate 995 x :=
  (congrArg (fun n => List.replicate n x) (by norm_num : 1000 = 5 + 995)).trans
    (List.replicate_add 5 995 x)

/-- After five equal bytes from the initial state the encoder predicts that byte in a
context that no longer moves. -/
theorem encBuf_five (mcode x : Nat) (hx : x < 256) :
    (encBuf mcode Enc.init [x, x, x, x, x]).1.s.w
        (encBuf mcode Enc.init [x, x, x, x, x]).1.s.prev = x
    ∧ advance (encBuf mcode Enc.init [x, x, x, x, x]).1.s.prev x
        = (encBuf mcode Enc.init [x, x, x, x, x]).1.s.prev := by
  have hprev5 : (encBuf mcode Enc.init [x, x, x, x, x]).1.s.prev
      = advance (advance (advance (advance (advance 0 x) x) x) x) x := by
    simp only [encBuf, encStep_prev]
    rfl
  have hw5 : (encBuf mcode Enc.init [x, x, x, x, x]).1.s.w
      (advance (advance (advance (advance 0 x) x) x) x) = x := by
    simp only [encBuf]
    have := encStep_w mcode (encStep mcode (encStep mcode (encStep mcode
      (encStep mcode Enc.init x).1 x).1 x).1 x).1 x
    simp only [encStep_prev] at this
    exact this
  have hfix := advance_fixed x hx
  rw [hprev5, hfix]
  exact ⟨hw5, hfix⟩

theorem encRest_append_silent (mcode : Nat) (e : Enc) (P T : List Nat) (n : Nat)
    (h2 : (encBuf mcode (encBuf mcode e P).1 T).2 = [])
    (hb : (encBuf mcode (encBuf mcode e P).1 T).1.b = n) :
    encRest mcode e (P ++ T) = (encBuf mcode e P).2 ++ encEOF mcode n := by
  unfold encRest
  rw [encBuf_append]
  dsimp only
  rw [h2, hb, List.append_nil]

/-- The bits written for a thousand equal bytes: five passes at most write, the rest of
the input is one run. -/
theorem compress_replicate_le (vc : VLCodec)
    (hrun : ∀ n < 1000, (vc.put_vlcode n 0).length ≤ 64)
    (hrank : ∀ r ≤ 256, (vc.put_vlcode r BSIZE).length ≤ 64) (mcode x : Nat) (hx : x < 256) :
    (compress vc mcode (List.replicate 1000 x)).length ≤ 774 := by
  have h5 : ∀ c ∈ [x, x, x, x, x], c < 256 := fun c hc => by
    have : c = x := by simpa using hc
    rw [this]; exact hx
  have hb5 := encBuf_render_le vc hrun hrank mcode [x, x, x, x, x] h5 (e := Enc.init)
    St.init_inv (by simp [Enc.init])
  have hb0 : Enc.init.b = 0 := rfl
  simp only [List.length_cons, List.length_nil] at hb5
  have hfive := encBuf_five mcode x hx
  have hrest := encBuf_fixed mcode x 995 (encBuf mcode Enc.init [x, x, x, x, x]).1
    hfive.1 hfive.2 (by omega)
  rw [Nat.mod_eq_of_lt (by omega)] at hrest
  have hflush := flushRun_render_le vc hrun
    ((encBuf mcode Enc.init [x, x, x, x, x]).1.b + 995) (by omega)
  have hmark : (render vc (if mcode = mPPP then [Put.nbits EOF_PPP 8, Put.ONE]
      else [Put.vlcode EOF_VLC BSIZE])).length ≤ 64 := by
    by_cases hm : mcode = mPPP
    · simp [hm, render, Put.bits, put_nbits_length]
    · have := hrank EOF_VLC (by decide)
      simpa [hm, render, Put.bits] using this
  unfold compress
  rw [compressCalls_freads, replicate_thousand]
  have h5' : List.replicate 5 x = [x, x, x, x, x] := rfl
  have hE := encRest_append_silent mcode Enc.init [x, x, x, x, x] (List.replicate 995 x) _
    hrest.1 hrest.2
  rw [h5', hE, render_append, List.length_append, encEOF, render_append, List.length_append]
  omega

/-- Claim C10, run amplification: for every byte `x` the bits `compress` writes for the
input made of `x` a thousand times are fewer than a thousand literal codes, of 8 bits
each in mode 1 and of the length of `put_vlcode(0, 3)` each in mode 2; this for every
invertible codec whose codes for the run lengths below 1000 and for the ranks up to 256
have at most 64 bits. -/
theorem run_amplification (vc : VLCodec) (hv : vc.Inverts)
    (hrun : ∀ n < 1000, (vc.put_vlcode n 0).length ≤ 64)
    (hrank : ∀ r ≤ 256, (vc.put_vlcode r BSIZE).length ≤ 64) (x : Nat) (hx : x < 256) :
    (compress vc mPPP (List.replicate 1000 x)).length < 1000 * 8
    ∧ (compress vc mVLCODE (List.replicate 1000 x)).length
        < 1000 * (vc.put_vlcode 0 BSIZE).length := by
  have h1 := compress_replicate_le vc hrun hrank mPPP x hx
  have h2 := compress_replicate_le vc hrun hrank mVLCODE x hx
  have h3 := put_vlcode_ne_nil vc hv 0 BSIZE
  constructor <;> omega

set_option maxRecDepth 100000 in
theorem refCodec_run_le : ∀ n < 1000, (refCodec.put_vlcode n 0).length ≤ 64 := by
  decide

set_option maxRecDepth 100000 in
theorem refCodec_rank_le : ∀ r ≤ 256, (refCodec.put_vlcode r BSIZE).length ≤ 64 := by
  decide

theorem run_amplification_witness :
    refCodec.Inverts ∧ (∀ n < 1000, (refCodec.put_vlcode n 0).length ≤ 64)
    ∧ (∀ r ≤ 256, (refCodec.put_vlcode r BSIZE).length ≤ 64) ∧ 32 < 256
    ∧ (compress refCodec mPPP (List.replicate 1000 32)).length < 1000 * 8
    ∧ (compress refCodec mVLCODE (List.replicate 1000 32)).length
        < 1000 * (refCodec.put_vlcode 0 BSIZE).length :=
  ⟨refCodec_inverts, refCodec_run_le, refCodec_rank_le, by decide,
    run_amplification refCodec refCodec_inverts refCodec_run_le refCodec_rank_le 32 (by decide)⟩

/-! ### The two update rules of the symbol-rank list -/

theorem head_c_mtf (c : Nat) (order : List Nat) : head_c (mtf c order).2 = c := rfl

/-- The guarded call `if (head->c != rank) mtf(rank)` of the encoder leaves the list as
the plain call `mtf(rank)` of the decoder does, the list not being empty. -/
theorem guarded_mtf_eq (order : List Nat) (hne : order ≠ []) (r : Nat) :
    (if head_c order ≠ r then (mtf r order).2 else order) = (mtf r order).2 := by
  split
  · rfl
  · rename_i hh
    exact (mtf_head _ _ hne (not_not.mp hh)).symm

/-- Claim C16, the matched-byte update is the same on both sides: in mode 2, for every
table state (the list not empty) and every matched byte `c`, the update of `compress`,
which calls `mtf(rank)` only if the front is not the anchor, and the update of
`decompress`, which calls it always, leave the same state: `c` counted once more, the
anchor `c` if its new count has reached the anchor's, and the anchor at the front of the
list; the pass of `compress` on a matched byte makes no call to the bit sink. -/
theorem matched_update_same (s : St) (hne : s.order ≠ []) (c : Nat) :
    encMatchUpdate mVLCODE s c = decMatchUpdate mVLCODE s c
    ∧ (encMatchUpdate mVLCODE s c).f = Function.update s.f c (s.f c + 1)
    ∧ (encMatchUpdate mVLCODE s c).rank
        = (if (encMatchUpdate mVLCODE s c).f c ≥ (encMatchUpdate mVLCODE s c).f s.rank
            then c else s.rank)
    ∧ (encMatchUpdate mVLCODE s c).order = (mtf (encMatchUpdate mVLCODE s c).rank s.order).2
    ∧ (∀ e : Enc, e.s = s → s.w s.prev = c → (encStep mVLCODE e c).2 = []) := by
  have key := guarded_mtf_eq s.order hne
  refine ⟨?_, ?_, ?_, ?_, ?_⟩
  · unfold encMatchUpdate decMatchUpdate
    simp only [key]
  · simp [encMatchUpdate]
  · simp [encMatchUpdate]
  · simp only [encMatchUpdate, if_true, key]
  · intro e he hm
    subst he
    rw [encStep_match mVLCODE e c hm]

theorem matched_update_same_witness :
    St.init.order ≠ [] ∧
    encMatchUpdate mVLCODE St.init 7 = decMatchUpdate mVLCODE St.init 7 :=
  ⟨St.init_inv.ne_nil, (matched_update_same St.init St.init_inv.ne_nil 7).1⟩

/-- Claim C15, the literal update rule: in mode 2, for every table state and every
literal byte `c`, the literal step moves `c` to the front of the list and passes its
position before the move to `put_vlcode`, counts `c` once more and leaves the other
counts alone, and sets the anchor to `c` unless the anchor's count is above the new count
of `c` and the front is not `c`; `c` being the front after the move, the anchor is `c` in
every case.  The literal step of `decompress` on the position of `c` does the same. -/
theorem literal_update_rule (vc : VLCodec) (s : St) (c : Nat) :
    (encLiteral mVLCODE s c).2 = [Put.vlcode (s.order.indexOf c) BSIZE]
    ∧ (c ∈ s.order → s.order[s.order.indexOf c]? = some c)
    ∧ (encLiteral mVLCODE s c).1.order = c :: s.order.erase c
    ∧ (encLiteral mVLCODE s c).1.f c = s.f c + 1
    ∧ (∀ x, x ≠ c → (encLiteral mVLCODE s c).1.f x = s.f x)
    ∧ (encLiteral mVLCODE s c).1.rank
        = (if ¬ ((encLiteral mVLCODE s c).1.f s.rank > (encLiteral mVLCODE s c).1.f c
              ∧ head_c (encLiteral mVLCODE s c).1.order ≠ c) then c else s.rank)
    ∧ head_c (encLiteral mVLCODE s c).1.order = c
    ∧ (encLiteral mVLCODE s c).1.rank = c
    ∧ (∀ bs, c ∈ s.order → (vc.get_vlcode BSIZE bs).1 = s.order.indexOf c →
        s.order.indexOf c ≠ EOF_VLC →
        decLiteral vc mVLCODE s bs
          = Lit.byte c (encLiteral mVLCODE s c).1 (vc.get_vlcode BSIZE bs).2) := by
  have h21 : mVLCODE ≠ mPPP := by decide
  refine ⟨?_, ?_, ?_, ?_, ?_, ?_, ?_, ?_, ?_⟩
  · simp [encLiteral, h21, mtf]
  · exact fun hc => List.getElem?_indexOf hc
  · simp [encLiteral, h21, litUpdate, mtf]
  · simp [encLiteral, h21, litUpdate]
  · intro x hx
    simp [encLiteral, h21, litUpdate, Function.update_noteq hx]
  · simp [encLiteral, h21, litUpdate]
  · simp [encLiteral, h21, litUpdate, mtf, head_c]
  · simp [encLiteral, h21, litUpdate, mtf, head_c]
  · intro bs hc hv hne
    have hget := get_mtf_c_mtf c s.order hc
    simp only [mtf] at hget
    simp only [decLiteral, h21, if_false, hv, hne, hget, encLiteral, mtf]

set_option maxRecDepth 100000 in
theorem literal_update_rule_witness :
    (9 ∈ St.init.order → St.init.order[St.init.order.indexOf 9]? = some 9)
    ∧ 9 ∈ St.init.order
    ∧ (encLiteral mVLCODE St.init 9).1.rank = 9 :=
  ⟨(literal_update_rule refCodec St.init 9).2.1, by decide,
    (literal_update_rule refCodec St.init 9).2.2.2.2.2.2.2.1⟩

/-! ### The anchor and the front of the list -/

theorem head_c_alloc_mtf (n : Nat) : head_c (alloc_mtf (n + 1)) = 0 := by
  unfold alloc_mtf
  rw [List.range_succ_eq_map]
  rfl

theorem St.init_front : St.init.rank = head_c St.init.order := by
  simp only [St.init]
  exact (head_c_alloc_mtf 255).symm

/-- After the guarded call `if (head->c != rank) mtf(rank)` the front is `rank`. -/
theorem head_c_guarded_mtf (order : List Nat) (r : Nat) :
    head_c (if head_c order ≠ r then (mtf r order).2 else order) = r := by
  split
  · rfl
  · rename_i hh
    exact not_not.mp hh

theorem encMatchUpdate_front (mcode : Nat) (s : St) (c : Nat)
    (h : s.rank = head_c s.order) :
    (encMatchUpdate mcode s c).rank = head_c (encMatchUpdate mcode s c).order := by
  unfold encMatchUpdate
  split
  · exact (head_c_guarded_mtf s.order _).symm
  · exact h

theorem decMatchUpdate_front (mcode : Nat) (s : St) (c : Nat)
    (h : s.rank = head_c s.order) :
    (decMatchUpdate mcode s c).rank = head_c (decMatchUpdate mcode s c).order := by
  unfold decMatchUpdate
  split
  · rfl
  · exact h

/-- After a literal the anchor is the literal, which the move has put at the front. -/
theorem litUpdate_front (s : St) (c : Nat) (tl : List Nat) :
    (litUpdate s c (c :: tl)).rank = c ∧ head_c (litUpdate s c (c :: tl)).order = c := by
  simp [litUpdate, head_c]

theorem encLiteral_front (mcode : Nat) (s : St) (c : Nat) (h : s.rank = head_c s.order) :
    (encLiteral mcode s c).1.rank = head_c (encLiteral mcode s c).1.order := by
  unfold encLiteral
  split
  · exact h
  · have := litUpdate_front s c (s.order.erase c)
    simp only [mtf]
    rw [this.1, this.2]

theorem encStep_front (mcode : Nat) (e : Enc) (c : Nat) (h : e.s.rank = head_c e.s.order) :
    (encStep mcode e c).1.s.rank = head_c (encStep mcode e c).1.s.order := by
  by_cases hm : e.s.w e.s.prev = c
  · rw [encStep_match mcode e c hm]
    exact encMatchUpdate_front mcode e.s c h
  · rw [encStep_literal mcode e c hm]
    exact encLiteral_front mcode e.s c h

theorem encBuf_front (mcode : Nat) (P : List Nat) (e : Enc) (h : e.s.rank = head_c e.s.order) :
    (encBuf mcode e P).1.s.rank = head_c (encBuf mcode e P).1.s.order := by
  induction P generalizing e with
  | nil => exact h
  | cons c P ih =>
    rw [encBuf]
    exact ih _ (encStep_front mcode e c h)

theorem replay_front (mcode n : Nat) (s : St) (h : s.rank = head_c s.order) :
    (replay mcode n s).1.rank = head_c (replay mcode n s).1.order := by
  induction n generalizing s with
  | zero => exact h
  | succ n ih =>
    rw [replay]
    exact ih _ (decMatchUpdate_front mcode s _ h)

theorem decRun_front (vc : VLCodec) (mcode : Nat) (s : St) (bs : List Bool)
    (h : s.rank = head_c s.order) :
    (decRun vc mcode s bs).1.rank = head_c (decRun vc mcode s bs).1.order := by
  unfold decRun
  by_cases hb : (get_bit bs).1 = true
  · simp only [hb, if_true]
    exact replay_front mcode _ s h
  · simp only [hb]
    exact h

theorem decLiteral_front (vc : VLCodec) (mcode : Nat) (s : St) (bs : List Bool)
    (h : s.rank = head_c s.order) {c : Nat} {s2 : St} {bs2 : List Bool}
    (hl : decLiteral vc mcode s bs = Lit.byte c s2 bs2) :
    s2.rank = head_c s2.order := by
  unfold decLiteral at hl
  by_cases hm : mcode = mPPP
  · simp only [hm, if_true] at hl
    split at hl
    · split at hl
      · cases hl
      · cases hl; exact h
    · cases hl; exact h
  · simp only [hm, if_false] at hl
    split at hl
    · cases hl
    · split at hl
      · cases hl
      · rename_i c1 order1 hg
        cases hl
        unfold get_mtf_c at hg
        split at hg
        · cases hg
        · cases hg
          have := litUpdate_front s c (s.order.eraseIdx (vc.get_vlcode BSIZE bs).1)
          rw [this.1, this.2]

theorem decEnd_front (vc : VLCodec) (mcode k : Nat) (s : St) (bs : List Bool)
    (h : s.rank = head_c s.order) :
    (decEnd vc mcode k s bs).rank = head_c (decEnd vc mcode k s bs).order := by
  induction k generalizing s bs with
  | zero => exact h
  | succ k ih =>
    rw [decEnd]
    have hr := decRun_front vc mcode s bs h
    cases hl : decLiteral vc mcode (decRun vc mcode s bs).1 (decRun vc mcode s bs).2.2 with
    | stop why => exact hr
    | byte c s2 bs2 =>
      have h2 : s2.rank = head_c s2.order := decLiteral_front vc mcode _ _ hr hl
      exact ih { s2 with w := Function.update s2.w s2.prev c, prev := advance s2.prev c } bs2 h2

/-- Claim C14, the anchor is always the list front: in every state `compress` reaches
from the initial state on the bytes `P`, in every state `decompress` is left in after
any number of passes on any bits, and after any number of bytes replayed from there, in
every mode, `rank` is the symbol at the front of the list. -/
theorem anchor_is_front (vc : VLCodec) (mcode : Nat) (P : List Nat) (k : Nat)
    (bs : List Bool) (n : Nat) :
    (encBuf mcode Enc.init P).1.s.rank = head_c (encBuf mcode Enc.init P).1.s.order
    ∧ (decEnd vc mcode k St.init bs).rank = head_c (decEnd vc mcode k St.init bs).order
    ∧ (replay mcode n (decEnd vc mcode k St.init bs)).1.rank
        = head_c (replay mcode n (decEnd vc mcode k St.init bs)).1.order :=
  have hd := decEnd_front vc mcode k St.init bs St.init_front
  ⟨encBuf_front mcode P Enc.init St.init_front, hd, replay_front mcode n _ hd⟩

/-! ### The frequency counters -/

theorem encStep_f_rank (c : Nat) (e : Enc) :
    (encStep mVLCODE e c).1.s.f = Function.update e.s.f c (e.s.f c + 1) := by
  have h21 : mVLCODE ≠ mPPP := by decide
  by_cases hm : e.s.w e.s.prev = c
  · rw [encStep_match mVLCODE e c hm]
    simp [encMatchUpdate]
  · rw [encStep_literal mVLCODE e c hm]
    simp [encLiteral, h21, litUpdate]

theorem encBuf_f_rank (P : List Nat) (e : Enc) (x : Nat) :
    (encBuf mVLCODE e P).1.s.f x = e.s.f x + P.count x := by
  induction P generalizing e with
  | nil => simp [encBuf]
  | cons c P ih =>
    rw [encBuf]
    simp only [ih, encStep_f_rank, List.count_cons]
    by_cases hx : c = x
    · subst hx; simp; omega
    · have hx2 : x ≠ c := fun h => hx h.symm
      simp [hx, Function.update_noteq hx2]

theorem encStep_raw_tables (c : Nat) (e : Enc) :
    (encStep mPPP e c).1.s.f = e.s.f ∧ (encStep mPPP e c).1.s.order = e.s.order
      ∧ (encStep mPPP e c).1.s.rank = e.s.rank := by
  have h12 : mPPP ≠ mVLCODE := by decide
  by_cases hm : e.s.w e.s.prev = c
  · rw [encStep_match mPPP e c hm]
    simp [encMatchUpdate, h12]
  · rw [encStep_literal mPPP e c hm]
    simp [encLiteral]

theorem encBuf_raw_tables (P : List Nat) (e : Enc) :
    (encBuf mPPP e P).1.s.f = e.s.f ∧ (encBuf mPPP e P).1.s.order = e.s.order
      ∧ (encBuf mPPP e P).1.s.rank = e.s.rank := by
  induction P generalizing e with
  | nil => simp [encBuf]
  | cons c P ih =>
    rw [encBuf]
    have h1 := encStep_raw_tables c e
    have h2 := ih (encStep mPPP e c).1
    exact ⟨h2.1.trans h1.1, h2.2.1.trans h1.2.1, h2.2.2.trans h1.2.2⟩

/-- Claim C18, frequencies count occurrences: in mode 2, once `compress` has processed
the bytes `P`, the counter of every symbol `x` is the number of occurrences of `x` in
`P`, matched and literal bytes alike, and it is below `2^31` when `P` is shorter than
that; in mode 1 every counter is still 0 and the list order and the anchor are as they
were set up. -/
theorem frequencies_count (P : List Nat) (x : Nat) :
    (encBuf mVLCODE Enc.init P).1.s.f x = P.count x
    ∧ (P.length < 2 ^ 31 → (encBuf mVLCODE Enc.init P).1.s.f x < 2 ^ 31)
    ∧ (encBuf mPPP Enc.init P).1.s.f x = 0
    ∧ (encBuf mPPP Enc.init P).1.s.order = alloc_mtf 256
    ∧ (encBuf mPPP Enc.init P).1.s.rank = 0 := by
  have h := encBuf_f_rank P Enc.init x
  have hc : (encBuf mVLCODE Enc.init P).1.s.f x = P.count x := by
    rw [h]
    show 0 + P.count x = P.count x
    omega
  have hr := encBuf_raw_tables P Enc.init
  refine ⟨hc, ?_, ?_, ?_, ?_⟩
  · intro hlen
    have := List.count_le_length x P
    omega
  · rw [hr.1]
    simp only [Enc.init, St.init]
  · rw [hr.2.1]
    simp only [Enc.init, St.init]
  · rw [hr.2.2]
    simp only [Enc.init, St.init]

set_option maxRecDepth 100000 in
theorem frequencies_count_witness :
    [7, 7, 9, 7].length < 2 ^ 31
    ∧ (encBuf mVLCODE Enc.init [7, 7, 9, 7]).1.s.f 7 = 3
    ∧ (encBuf mVLCODE Enc.init [7, 7, 9, 7]).1.s.f 7 < 2 ^ 31 :=
  ⟨by decide, (frequencies_count [7, 7, 9, 7] 7).1,
    (frequencies_count [7, 7, 9, 7] 7).2.1 (by decide)⟩

/-! ### The context hash -/

/-- The context update in arithmetic: shift by five bits, add, keep twenty bits. -/
theorem advance_eq (p c : Nat) : advance p c = (p * 32 + c) % 1048576 := by
  have e : WMASK = 2 ^ 20 - 1 := by decide
  unfold advance
  rw [e, Nat.and_pow_two_sub_one_eq_mod, Nat.shiftLeft_eq]

theorem advance_lt (p c : Nat) : advance p c < WSIZE := by
  have hW : WSIZE = 1048576 := by decide
  rw [advance_eq, hW]
  omega

/-- Four updates push the starting context out of the twenty bits kept. -/
theorem advance_four (p q a b c d : Nat) :
    advance (advance (advance (advance p a) b) c) d
      = advance (advance (advance (advance q a) b) c) d := by
  simp only [advance_eq]
  omega

/-- The context after four bytes or more does not depend on the context before them. -/
theorem foldl_advance_four (T : List Nat) (hT : 4 ≤ T.length) (p q : Nat) :
    T.foldl advance p = T.foldl advance q := by
  induction T generalizing p q with
  | nil => simp at hT
  | cons a T ih =>
    by_cases h4 : 4 ≤ T.length
    · exact ih h4 _ _
    · have h3 : T.length = 3 := by
        simp only [List.length_cons] at hT
        omega
      obtain ⟨b, c, d, rfl⟩ := List.length_eq_three.mp h3
      exact advance_four p q a b c d

theorem context_append (P T : List Nat) : context (P ++ T) = T.foldl advance (context P) := by
  simp [context]

/-- The context variable of `compress` is the fold of the update over the bytes read. -/
theorem encBuf_prev (mcode : Nat) (P : List Nat) (e : Enc) :
    (encBuf mcode e P).1.s.prev = P.foldl advance e.s.prev := by
  induction P generalizing e with
  | nil => rfl
  | cons c P ih =>
    rw [encBuf]
    simp only [ih, encStep_prev, List.foldl_cons]

/-- Claim C12, as the claim states it, fails at `k = 4`: no two byte sequences that agree
on their last four bytes yield different contexts. -/
theorem context_history_not_unbounded :
    ¬ ∃ P Q T : List Nat, T.length = 4 ∧ context (P ++ T) ≠ context (Q ++ T) := by
  rintro ⟨P, Q, T, hT, hne⟩
  apply hne
  rw [context_append, context_append]
  exact foldl_advance_four T (by omega) _ _

/-- Claim C12, amended: the context of `compress`, the fold of the update over the bytes
processed, depends on the last four bytes only: two sequences that agree on their last
four bytes or more yield the same context, while for every `k` below 4 there are two byte
sequences that agree on their last `k` bytes and yield different contexts. -/
theorem context_last_four (mcode : Nat) (P Q T : List Nat) (hT : 4 ≤ T.length) :
    (encBuf mcode Enc.init (P ++ T)).1.s.prev = context (P ++ T)
    ∧ context (P ++ T) = context (Q ++ T)
    ∧ (encBuf mcode Enc.init (P ++ T)).1.s.prev = (encBuf mcode Enc.init (Q ++ T)).1.s.prev
    ∧ (∀ k, k < 4 → ∃ P1 Q1 T1 : List Nat, T1.length = k
        ∧ (∀ c ∈ P1 ++ Q1 ++ T1, c < 256) ∧ context (P1 ++ T1) ≠ context (Q1 ++ T1)) := by
  have h1 : ∀ S, (encBuf mcode Enc.init S).1.s.prev = context S := fun S =>
    encBuf_prev mcode S Enc.init
  have h2 : context (P ++ T) = context (Q ++ T) := by
    rw [context_append, context_append]
    exact foldl_advance_four T hT _ _
  refine ⟨h1 _, h2, by rw [h1, h1, h2], ?_⟩
  intro k hk
  refine ⟨[1], [0], List.replicate k 0, by simp, ?_, ?_⟩
  · intro c hc
    simp only [List.append_assoc, List.mem_append, List.mem_singleton, List.mem_replicate] at hc
    omega
  · interval_cases k <;> decide

theorem context_last_four_witness :
    4 ≤ [5, 6, 7, 8].length
    ∧ context ([1, 2, 3] ++ [5, 6, 7, 8]) = context ([200, 100] ++ [5, 6, 7, 8]) :=
  ⟨by decide, (context_last_four mPPP [1, 2, 3] [200, 100] [5, 6, 7, 8] (by decide)).2.1⟩

/-! ### Indices and arithmetic stay in range -/

/-- With a context below `2^20` and a byte, `(prev<<5)+c` fits an `int`. -/
theorem shift_add_lt {p c : Nat} (hp : p < WSIZE) (hc : c < 256) :
    (p <<< 5) + c < 2 ^ 31 := by
  have hW : WSIZE = 1048576 := by decide
  rw [Nat.shiftLeft_eq]
  norm_num
  omega

theorem foldl_advance_lt (P : List Nat) (p : Nat) (hp : p < WSIZE) :
    P.foldl advance p < WSIZE := by
  induction P generalizing p with
  | nil => exact hp
  | cons c P ih => exact ih _ (advance_lt p c)

theorem St.init_prev_lt : St.init.prev < WSIZE := by
  show 0 < WSIZE
  decide

theorem replay_prev_lt (mcode n : Nat) (s : St) (h : s.prev < WSIZE) :
    (replay mcode n s).1.prev < WSIZE := by
  induction n generalizing s with
  | zero => exact h
  | succ n ih =>
    rw [replay]
    exact ih _ (advance_lt _ _)

theorem replay_bytes (mcode n : Nat) {s : St} (h : s.Inv) :
    ∀ x ∈ (replay mcode n s).2, x < 256 := by
  induction n generalizing s with
  | zero => simp [replay]
  | succ n ih =>
    rw [replay]
    intro x hx
    rcases List.mem_cons.mp hx with rfl | hx
    · exact h.bytes _
    · have := decMatchUpdate_inv mcode h (h.bytes s.prev)
      refine ih ?_ x hx
      exact ⟨this.perm, this.rank, this.bytes⟩

theorem decMatchUpdate_prev (mcode : Nat) (s : St) (c : Nat) :
    (decMatchUpdate mcode s c).prev = s.prev ∧ (decMatchUpdate mcode s c).w = s.w := by
  unfold decMatchUpdate
  split <;> exact ⟨rfl, rfl⟩

theorem decRun_inv (vc : VLCodec) (mcode : Nat) {s : St} (h : s.Inv) (bs : List Bool) :
    (decRun vc mcode s bs).1.Inv ∧ ∀ x ∈ (decRun vc mcode s bs).2.1, x < 256 := by
  unfold decRun
  by_cases hb : (get_bit bs).1 = true
  · simp only [hb, if_true]
    exact ⟨replay_inv mcode _ h, replay_bytes mcode _ h⟩
  · simp only [hb]
    exact ⟨h, by simp⟩

theorem decRun_prev_lt (vc : VLCodec) (mcode : Nat) (s : St) (h : s.prev < WSIZE)
    (bs : List Bool) : (decRun vc mcode s bs).1.prev < WSIZE := by
  unfold decRun
  by_cases hb : (get_bit bs).1 = true
  · simp only [hb, if_true]
    exact replay_prev_lt mcode _ s h
  · simp only [hb]
    exact h

/-- The symbol found at a position of the list, moved to the front, leaves a permutation
of the list. -/
theorem get_mtf_c_perm {order : List Nat} (hnd : order.Nodup) {i c : Nat} {order1 : List Nat}
    (h : get_mtf_c i order = some (c, order1)) : order1.Perm order ∧ c ∈ order := by
  unfold get_mtf_c at h
  split at h
  · cases h
  · rename_i c1 hg
    cases h
    obtain ⟨hi, rfl⟩ := List.getElem?_eq_some.mp hg
    have hidx : order.indexOf order[i] = i := List.indexOf_getElem hnd i hi
    have hmem : order[i] ∈ order := List.getElem_mem hi
    have he : order.eraseIdx i = order.erase order[i] := by
      rw [← List.eraseIdx_indexOf_eq_erase, hidx]
    rw [he]
    exact ⟨(List.perm_cons_erase hmem).symm, hmem⟩

theorem St.Inv.nodup {s : St} (h : s.Inv) : s.order.Nodup :=
  h.perm.nodup_iff.mpr (List.nodup_range 256)

/-- A byte delivered by the literal part of `decompress` is below 256, and the tables
keep their invariant. -/
theorem decLiteral_inv (vc : VLCodec) (mcode : Nat) {s : St} (h : s.Inv) (bs : List Bool)
    {c : Nat} {s2 : St} {bs2 : List Bool}
    (hl : decLiteral vc mcode s bs = Lit.byte c s2 bs2) :
    c < 256 ∧ s2.Inv ∧ s2.prev = s.prev := by
  unfold decLiteral at hl
  have h8 := get_nbits_lt 8 bs
  by_cases hm : mcode = mPPP
  · simp only [hm, if_true] at hl
    split at hl
    · split at hl
      · cases hl
      · cases hl; exact ⟨by simpa using h8, h, rfl⟩
    · cases hl; exact ⟨by simpa using h8, h, rfl⟩
  · simp only [hm, if_false] at hl
    split at hl
    · cases hl
    · split at hl
      · cases hl
      · rename_i c1 order1 hg
        cases hl
        have hp := get_mtf_c_perm h.nodup hg
        have hc : c < 256 := List.mem_range.mp (h.perm.subset hp.2)
        exact ⟨hc, litUpdate_inv h hc hp.1, rfl⟩

/-- Every state `decompress` is left in, on any bits, keeps the invariant of the tables
and a context below `2^20`. -/
theorem decEnd_inv (vc : VLCodec) (mcode k : Nat) {s : St} (h : s.Inv) (hp : s.prev < WSIZE)
    (bs : List Bool) :
    (decEnd vc mcode k s bs).Inv ∧ (decEnd vc mcode k s bs).prev < WSIZE := by
  induction k generalizing s bs with
  | zero => exact ⟨h, hp⟩
  | succ k ih =>
    rw [decEnd]
    have hr := decRun_inv vc mcode h bs
    have hrp := decRun_prev_lt vc mcode s hp bs
    cases hl : decLiteral vc mcode (decRun vc mcode s bs).1 (decRun vc mcode s bs).2.2 with
    | stop why => exact ⟨hr.1, hrp⟩
    | byte c s2 bs2 =>
      have h2 := decLiteral_inv vc mcode hr.1 _ hl
      refine ih ?_ (advance_lt _ _) bs2
      exact ⟨h2.2.1.perm, h2.2.1.rank, update_bytes h2.2.1.bytes _ h2.1⟩

/-- Every byte `decompress` delivers, on any bits, is below 256. -/
theorem decLoop_bytes (vc : VLCodec) (mcode k : Nat) {s : St} (h : s.Inv) (bs : List Bool) :
    ∀ x ∈ (decLoop vc mcode k s bs).1, x < 256 := by
  induction k generalizing s bs with
  | zero => simp [decLoop]
  | succ k ih =>
    rw [decLoop]
    have hr := decRun_inv vc mcode h bs
    cases hl : decLiteral vc mcode (decRun vc mcode s bs).1 (decRun vc mcode s bs).2.2 with
    | stop why => exact hr.2
    | byte c s2 bs2 =>
      have h2 := decLiteral_inv vc mcode hr.1 _ hl
      intro x hx
      simp only [List.mem_append, List.mem_cons] at hx
      rcases hx with hx | rfl | hx
      · exact hr.2 x hx
      · exact h2.1
      · refine ih ?_ bs2 x hx
        exact ⟨h2.2.1.perm, h2.2.1.rank, update_bytes h2.2.1.bytes _ h2.1⟩

/-- Claim C19, table indices stay in range.  In `compress`, after any bytes `P`, and in
`decompress`, after any number of passes on any bits and any number of bytes replayed,
the context `prev` is below `2^20`, so `w[prev]` is an access within the table, and with
any byte `c`, as the bytes read by `compress` and those delivered by `decompress` are,
`(prev<<5)+c` is below `2^31`; in `compress`, on a read that fits the look-ahead buffer,
as the reads made by `fread` do, the index `n & WMASK` is `n` and is below the number of
bytes read, and the inner loop goes through exactly the bytes read. -/
theorem indices_in_range (vc : VLCodec) (mcode : Nat) (P : List Nat) (k : Nat)
    (bs : List Bool) (j c : Nat) (hc : c < 256) :
    ((encBuf mcode Enc.init P).1.s.prev < WSIZE
      ∧ ((encBuf mcode Enc.init P).1.s.prev <<< 5) + c < 2 ^ 31)
    ∧ ((decEnd vc mcode k St.init bs).prev < WSIZE
      ∧ (replay mcode j (decEnd vc mcode k St.init bs)).1.prev < WSIZE
      ∧ ((replay mcode j (decEnd vc mcode k St.init bs)).1.prev <<< 5) + c < 2 ^ 31
      ∧ (∀ x ∈ (decLoop vc mcode k St.init bs).1, x < 256)
      ∧ (∀ x ∈ (replay mcode j (decEnd vc mcode k St.init bs)).2, x < 256))
    ∧ (∀ p : List Nat, p.length ≤ WSIZE →
        (∀ n, n < p.length → n &&& WMASK = n ∧ n &&& WMASK < p.length)
        ∧ ∀ e, encWhile mcode p p.length 0 e = encBuf mcode e p)
    ∧ (∀ p ∈ freads P.length P, p.length ≤ WSIZE) := by
  have he : (encBuf mcode Enc.init P).1.s.prev < WSIZE := by
    rw [encBuf_prev]
    exact foldl_advance_lt P _ St.init_prev_lt
  have hd := decEnd_inv vc mcode k St.init_inv St.init_prev_lt bs
  have hr := replay_prev_lt mcode j _ hd.2
  refine ⟨⟨he, shift_add_lt he hc⟩,
    ⟨hd.2, hr, shift_add_lt hr hc, decLoop_bytes vc mcode k St.init_inv bs,
      replay_bytes mcode j hd.1⟩, ?_, fun p hp => (freads_bounds _ P p hp).2⟩
  intro p hp
  refine ⟨fun n hn => ?_, fun e => ?_⟩
  · rw [and_WMASK (by omega)]
    exact ⟨rfl, hn⟩
  · have := encWhile_eq_encBuf mcode p hp p.length 0 e (by omega)
    rwa [List.drop_zero] at this

theorem indices_in_range_witness :
    (65 : Nat) < 256
    ∧ (encBuf mPPP Enc.init [1, 2, 3]).1.s.prev < WSIZE
    ∧ ((encBuf mPPP Enc.init [1, 2, 3]).1.s.prev <<< 5) + 65 < 2 ^ 31 :=
  ⟨by decide, (indices_in_range refCodec mPPP [1, 2, 3] 2 [] 1 65 (by decide)).1⟩

/-! ### Reads -/

/-- Claim C17, chunk independence: for every two ways of delivering the same input as
reads that are not empty and hold at most `2^20` bytes each, `compress` makes the same
calls and so writes the same bits, those written for the input read by `fread`; the
encoder state after the reads, run counter, context and anchor included, is the state
after the bytes, so that a run is carried across a read boundary. -/
theorem chunk_independence (vc : VLCodec) (mcode : Nat) (rs1 rs2 : List (List Nat))
    (h1 : ∀ p ∈ rs1, p ≠ [] ∧ p.length ≤ WSIZE)
    (h2 : ∀ p ∈ rs2, p ≠ [] ∧ p.length ≤ WSIZE)
    (h : rs1.flatten = rs2.flatten) :
    compressCalls mcode rs1 = compressCalls mcode rs2
    ∧ render vc (compressCalls mcode rs1) = render vc (compressCalls mcode rs2)
    ∧ render vc (compressCalls mcode rs1) = compress vc mcode rs1.flatten
    ∧ encReads mcode Enc.init rs1 = encBuf mcode Enc.init rs1.flatten
    ∧ (encReads mcode Enc.init rs1).1 = (encReads mcode Enc.init rs2).1 := by
  have e1 := encReads_eq_encBuf mcode Enc.init rs1 h1
  have e2 := encReads_eq_encBuf mcode Enc.init rs2 h2
  have hc : compressCalls mcode rs1 = compressCalls mcode rs2 := by
    unfold compressCalls
    rw [e1, e2, h]
  refine ⟨hc, by rw [hc], ?_, e1, by rw [e1, e2, h]⟩
  unfold compress
  rw [compressCalls_freads]
  unfold compressCalls encRest
  rw [e1]

set_option maxRecDepth 100000 in
theorem chunk_independence_witness :
    (∀ p ∈ [[0, 0], [0, 0, 5]], p ≠ [] ∧ p.length ≤ WSIZE)
    ∧ (∀ p ∈ [[0, 0, 0, 0, 5]], p ≠ [] ∧ p.length ≤ WSIZE)
    ∧ [[0, 0], [0, 0, 5]].flatten = [[0, 0, 0, 0, 5]].flatten
    ∧ compressCalls mVLCODE [[0, 0], [0, 0, 5]] = compressCalls mVLCODE [[0, 0, 0, 0, 5]]
    ∧ compressCalls mVLCODE [[0, 0], [0, 0, 5]]
        = [Put.ONE, Put.vlcode 3 0, Put.vlcode 5 BSIZE, Put.ZERO, Put.vlcode EOF_VLC BSIZE] :=
  ⟨by decide, by decide, by decide,
    (chunk_independence refCodec mVLCODE [[0, 0], [0, 0, 5]] [[0, 0, 0, 0, 5]]
      (by decide) (by decide) (by decide)).1, by decide⟩

/-! ### Records -/

theorem flushRun_bits (vc : VLCodec) (b : Nat) :
    render vc (flushRun b) = (if b = 0 then [false] else true :: vc.put_vlcode (b - 1) 0) := by
  unfold flushRun
  by_cases hb : b = 0 <;> simp [hb, render, Put.bits]

/-- As long as the run counter does not wrap, it is the number of bytes predicted since
the previous record, and the bits `compress` writes from the state `e` on are the bits of
the records. -/
theorem encRecords_bits (vc : VLCodec) (mcode : Nat) (S : List Nat) (e : Enc)
    (hlen : e.b + S.length < 2 ^ 32) :
    (encRecords mcode e.b e S).flatMap (Record.bits vc mcode)
      = render vc (encRest mcode e S) := by
  induction S generalizing e with
  | nil =>
    rw [encRest_nil, encEOF, render_append, flushRun_bits]
    by_cases hm : mcode = mPPP <;>
      simp [encRecords, Record.bits, hm, render, Put.bits, EOF_PPP, EOF_VLC, BSIZE]
  | cons c S ih =>
    rw [List.length_cons] at hlen
    rw [encRest_cons, encRecords, render_append]
    by_cases hp : e.s.w e.s.prev = c
    · have hstep := encStep_match mcode e c hp
      rw [Nat.mod_eq_of_lt (by omega)] at hstep
      have hb : (encStep mcode e c).1.b = e.b + 1 := by rw [hstep]
      have := ih (encStep mcode e c).1 (by rw [hb]; omega)
      rw [hb] at this
      simp only [hp, if_true, this]
      rw [hstep]
      simp [render]
    · have hstep := encStep_literal mcode e c hp
      have hb : (encStep mcode e c).1.b = 0 := by rw [hstep]
      have := ih (encStep mcode e c).1 (by rw [hb]; omega)
      rw [hb] at this
      simp only [hp, if_false, List.flatMap_cons, this]
      rw [hstep]
      simp only [render_append, flushRun_bits, List.append_left_inj]
      by_cases hm : mcode = mPPP
      · by_cases h255 : c = 255 <;>
          simp [Record.bits, hm, encLiteral, render, Put.bits, EOF_PPP, h255]
      · simp [Record.bits, hm, encLiteral, render, Put.bits, BSIZE]

/-- The records end with the one final record, the others carry a literal. -/
theorem encRecords_shape (mcode : Nat) (S : List Nat) (e : Enc) (k : Nat) :
    ∃ recs k1, encRecords mcode k e S = recs ++ [⟨k1, none⟩]
      ∧ ∀ r ∈ recs, r.lit.isSome := by
  induction S generalizing e k with
  | nil => exact ⟨[], k, rfl, by simp⟩
  | cons c S ih =>
    rw [encRecords]
    by_cases hp : e.s.w e.s.prev = c
    · obtain ⟨recs, k1, h1, h2⟩ := ih (encStep mcode e c).1 (k + 1)
      exact ⟨recs, k1, by simp only [hp, if_true, h1], h2⟩
    · obtain ⟨recs, k1, h1, h2⟩ := ih (encStep mcode e c).1 0
      refine ⟨⟨k, some (if mcode = mPPP then c else (mtf c e.s.order).1)⟩ :: recs, k1,
        by simp only [hp, if_false, h1, List.cons_append], ?_⟩
      intro r hr
      rcases List.mem_cons.mp hr with rfl | hr
      · rfl
      · exact h2 r hr

/-- The predicted bytes counted by the records and the literals make up the input. -/
theorem encRecords_sum (mcode : Nat) (S : List Nat) (e : Enc) (k : Nat) :
    ((encRecords mcode k e S).map Record.k).sum
      + ((encRecords mcode k e S).filter (fun r => r.lit.isSome)).length = k + S.length := by
  induction S generalizing e k with
  | nil => simp [encRecords]
  | cons c S ih =>
    rw [encRecords]
    by_cases hp : e.s.w e.s.prev = c
    · have := ih (encStep mcode e c).1 (k + 1)
      simp only [hp, if_true, this, List.length_cons]
      omega
    · have := ih (encStep mcode e c).1 0
      simp only [hp, if_false, List.map_cons, List.sum_cons, List.filter_cons,
        Option.isSome_some, if_true, List.length_cons]
      omega

/-- There is one literal record for each position of the input at which the prediction
made in the state reached on the bytes before it is not the byte found. -/
theorem encRecords_count (mcode : Nat) (S : List Nat) (e : Enc) (k : Nat) :
    ((encRecords mcode k e S).filter (fun r => r.lit.isSome)).length
      = (List.range S.length).countP (fun i =>
          decide ((encBuf mcode e (S.take i)).1.s.w (encBuf mcode e (S.take i)).1.s.prev
            ≠ S.getD i 0)) := by
  induction S generalizing e k with
  | nil => simp [encRecords]
  | cons c S ih =>
    rw [List.length_cons, List.range_succ_eq_map, List.countP_cons, List.countP_map, encRecords]
    have hcongr : (List.range S.length).countP
        ((fun i => decide ((encBuf mcode e ((c :: S).take i)).1.s.w
            (encBuf mcode e ((c :: S).take i)).1.s.prev ≠ (c :: S).getD i 0)) ∘ Nat.succ)
        = (List.range S.length).countP (fun i =>
            decide ((encBuf mcode (encStep mcode e c).1 (S.take i)).1.s.w
              (encBuf mcode (encStep mcode e c).1 (S.take i)).1.s.prev ≠ S.getD i 0)) := by
      apply List.countP_congr
      intro i _
      simp [encBuf]
    rw [hcongr]
    by_cases hp : e.s.w e.s.prev = c
    · rw [← ih (encStep mcode e c).1 (k + 1)]
      simp [hp, encBuf]
    · rw [← ih (encStep mcode e c).1 0]
      simp [hp, encBuf]

/-- Where the context is a fixed point of `advance` and predicts `x`, a run of `x` makes
no record of its own: its bytes are counted in the final record. -/
theorem encRecords_fixed (mcode : Nat) (x n : Nat) (e : Enc) (k : Nat)
    (hw : e.s.w e.s.prev = x) (hp : advance e.s.prev x = e.s.prev) :
    encRecords mcode k e (List.replicate n x) = [⟨k + n, none⟩] := by
  induction n generalizing e k with
  | zero => rfl
  | succ n ih =>
    have hprev := encStep_prev mcode e x
    have hwx := encStep_w mcode e x
    have hw1 : (encStep mcode e x).1.s.w (encStep mcode e x).1.s.prev = x := by
      rw [hprev, hp]; exact hwx
    have hp1 : advance (encStep mcode e x).1.s.prev x = (encStep mcode e x).1.s.prev := by
      rw [hprev, hp, hp]
    rw [List.replicate_succ, encRecords]
    simp only [hw, if_true]
    rw [ih (encStep mcode e x).1 (k + 1) hw1 hp1]
    congr 2
    omega

/-- Claim C11, the run/literal record structure.  For every input `S` and every mode
there is one record for each mispredicted byte and one final record; nothing is written
for a predicted byte; the `k` of the records and the number of literal records add up to
the length of `S`; and for `S` shorter than `2^31` bytes the bits written by `compress`
are the bits of the records one after the other, a record that comes after `k` predicted
bytes starting with the bit 0 when `k = 0` and with the bit 1 and `put_vlcode(k - 1, 0)`
otherwise, and going on with the literal code of the mispredicted byte, or with the
end-of-stream marker in the final record.  Not so for every `S`: the input made of `2^32`
zero bytes is one final record after `2^32` predicted bytes, and `compress`, its run
counter back at 0, writes the record of no predicted byte. -/
theorem record_structure (vc : VLCodec) (mcode : Nat) (S : List Nat) :
    (S.length < 2 ^ 31 →
      compress vc mcode S = (encRecords mcode 0 Enc.init S).flatMap (Record.bits vc mcode))
    ∧ (∃ recs k, encRecords mcode 0 Enc.init S = recs ++ [⟨k, none⟩]
        ∧ ∀ r ∈ recs, r.lit.isSome)
    ∧ ((encRecords mcode 0 Enc.init S).filter (fun r => r.lit.isSome)).length
        = (List.range S.length).countP (fun i =>
            decide ((encBuf mcode Enc.init (S.take i)).1.s.w (context (S.take i))
              ≠ S.getD i 0))
    ∧ (∀ e c, e.s.w e.s.prev = c → (encStep mcode e c).2 = [])
    ∧ ((encRecords mcode 0 Enc.init S).map Record.k).sum
        + ((encRecords mcode 0 Enc.init S).filter (fun r => r.lit.isSome)).length
          = S.length
    ∧ encRecords mPPP 0 Enc.init (List.replicate (2 ^ 32) 0) = [⟨2 ^ 32, none⟩]
    ∧ compress vc mPPP (List.replicate (2 ^ 32) 0) = Record.bits vc mPPP ⟨0, none⟩
    ∧ compress vc mPPP (List.replicate (2 ^ 32) 0)
        ≠ (encRecords mPPP 0 Enc.init (List.replicate (2 ^ 32) 0)).flatMap
            (Record.bits vc mPPP) := by
  have hrec : encRecords mPPP 0 Enc.init (List.replicate (2 ^ 32) 0) = [⟨2 ^ 32, none⟩] := by
    rw [encRecords_fixed mPPP 0 (2 ^ 32) Enc.init 0 rfl rfl, Nat.zero_add]
  have hz : compress vc mPPP (List.replicate (2 ^ 32) 0) = Record.bits vc mPPP ⟨0, none⟩ := by
    rw [compress_zeros vc mPPP (2 ^ 32) (Nat.mod_self _)]
    rfl
  refine ⟨?_, encRecords_shape mcode S Enc.init 0, ?_, ?_, ?_, hrec, hz, ?_⟩
  · intro hlen
    have := encRecords_bits vc mcode S Enc.init (by show 0 + S.length < 2 ^ 32; omega)
    rw [compress, compressCalls_freads, ← this]
    rfl
  · rw [encRecords_count]
    apply List.countP_congr
    intro i _
    rw [encBuf_prev]
    rfl
  · intro e c hp
    rw [encStep_match mcode e c hp]
  · have := encRecords_sum mcode S Enc.init 0
    simpa using this
  · rw [hz, hrec]
    have h32 : (2 : Nat) ^ 32 ≠ 0 := by norm_num
    simp [Record.bits, h32]

set_option maxRecDepth 100000 in
theorem record_structure_witness :
    encRecords mVLCODE 0 Enc.init [0, 0, 5, 5, 5, 0]
        = [⟨2, some 5⟩, ⟨0, some 0⟩, ⟨0, some 0⟩, ⟨1, none⟩]
    ∧ [0, 0, 5, 5, 5, 0].length < 2 ^ 31
    ∧ compress refCodec mVLCODE [0, 0, 5, 5, 5, 0]
        = (encRecords mVLCODE 0 Enc.init [0, 0, 5, 5, 5, 0]).flatMap
            (Record.bits refCodec mVLCODE)
    ∧ (Enc.init.s.w Enc.init.s.prev = 0 → (encStep mVLCODE Enc.init 0).2 = []) :=
  ⟨by decide, by decide,
    (record_structure refCodec mVLCODE [0, 0, 5, 5, 5, 0]).1 (by decide),
    (record_structure refCodec mVLCODE [0, 0, 5, 5, 5, 0]).2.2.2.1 Enc.init 0⟩

/-! ### The prediction table -/

theorem context_snoc (P : List Nat) (c : Nat) :
    context (P ++ [c]) = advance (context P) c := by
  simp [context]

theorem tableMeans_nil : TableMeans (fun _ => 0) [] := by
  intro h
  exact ⟨fun i hi => absurd hi (by simp), fun _ => rfl⟩

/-- Storing the byte `c` found after the bytes `P` at the context of `P` keeps the
table's meaning. -/
theorem tableMeans_snoc {w : Nat → Nat} {P : List Nat} (H : TableMeans w P) (c : Nat) :
    TableMeans (Function.update w (context P) c) (P ++ [c]) := by
  have htake : ∀ i, i ≤ P.length → (P ++ [c]).take i = P.take i := fun i hi =>
    List.take_append_of_le_length hi
  have hget : ∀ i, i < P.length → (P ++ [c]).getD i 0 = P.getD i 0 := fun i hi =>
    List.getD_append P [c] 0 i hi
  have hlast : (P ++ [c]).getD P.length 0 = c := by
    rw [List.getD_append_right P [c] 0 P.length le_rfl]
    simp
  have hlen : (P ++ [c]).length = P.length + 1 := by simp
  have hctx : context ((P ++ [c]).take P.length) = context P := by
    rw [htake _ le_rfl, List.take_length]
  intro h
  by_cases hh : h = context P
  · subst hh
    rw [Function.update_same]
    refine ⟨fun i hi hci hlater => ?_, fun hnone => ?_⟩
    · by_cases hiP : i = P.length
      · rw [hiP, hlast]
      · exact absurd hctx (hlater P.length (by omega) (by omega))
    · exact absurd hctx (hnone P.length (by omega))
  · rw [Function.update_noteq hh]
    refine ⟨fun i hi hci hlater => ?_, fun hnone => ?_⟩
    · have hiP : i < P.length := by
        by_contra hcon
        have : i = P.length := by omega
        rw [this, hctx] at hci
        exact hh hci.symm
      rw [hget i hiP]
      apply (H h).1 i hiP
      · rw [← htake i (by omega)]; exact hci
      · intro j hij hj
        rw [← htake j (by omega)]
        exact hlater j hij (by omega)
    · apply (H h).2
      intro i hi
      rw [← htake i (by omega)]
      exact hnone i (by omega)

/-- One pass of `compress` stores the byte at the current context, which changes
nothing when the byte was predicted. -/
theorem encStep_w_eq (mcode : Nat) (e : Enc) (c : Nat) :
    (encStep mcode e c).1.s.w = Function.update e.s.w e.s.prev c := by
  by_cases hm : e.s.w e.s.prev = c
  · rw [encStep_match mcode e c hm]
    show (encMatchUpdate mcode e.s c).w = _
    rw [(encMatchUpdate_w_prev mcode e.s c).1, ← hm, Function.update_eq_self]
  · rw [encStep_literal mcode e c hm]
    show Function.update (encLiteral mcode e.s c).1.w (encLiteral mcode e.s c).1.prev c = _
    rw [(encLiteral_w_prev mcode e.s c).1, (encLiteral_w_prev mcode e.s c).2]

theorem encBuf_tableMeans (mcode : Nat) (P : List Nat) :
    TableMeans (encBuf mcode Enc.init P).1.s.w P := by
  induction P using List.reverseRecOn with
  | nil => exact tableMeans_nil
  | append_singleton P c ih =>
    have hstep : (encBuf mcode Enc.init (P ++ [c])).1
        = (encStep mcode (encBuf mcode Enc.init P).1 c).1 := by
      rw [encBuf_append]
      simp [encBuf]
    rw [hstep, encStep_w_eq, encBuf_prev]
    exact tableMeans_snoc ih c

theorem replay_tab (mcode n : Nat) (s : St) (P : List Nat) (h : DecTab s P) :
    DecTab (replay mcode n s).1 (P ++ (replay mcode n s).2) := by
  induction n generalizing s P with
  | zero => simpa [replay] using h
  | succ n ih =>
    rw [replay]
    have hp := decMatchUpdate_prev mcode s (s.w s.prev)
    have hstep : DecTab { decMatchUpdate mcode s (s.w s.prev) with
        prev := advance (decMatchUpdate mcode s (s.w s.prev)).prev (s.w s.prev) }
        (P ++ [s.w s.prev]) := by
      constructor
      · show advance (decMatchUpdate mcode s (s.w s.prev)).prev (s.w s.prev) = _
        rw [hp.1, h.1, context_snoc]
      · show TableMeans (decMatchUpdate mcode s (s.w s.prev)).w _
        have := tableMeans_snoc h.2 (s.w s.prev)
        rw [← h.1, Function.update_eq_self] at this
        rw [hp.2]
        exact this
    have := ih _ _ hstep
    simpa using this

theorem decRun_tab (vc : VLCodec) (mcode : Nat) (s : St) (bs : List Bool) (P : List Nat)
    (h : DecTab s P) :
    DecTab (decRun vc mcode s bs).1 (P ++ (decRun vc mcode s bs).2.1) := by
  unfold decRun
  by_cases hb : (get_bit bs).1 = true
  · simp only [hb, if_true]
    exact replay_tab mcode _ s P h
  · simpa [hb] using h

theorem decLiteral_w_prev (vc : VLCodec) (mcode : Nat) (s : St) (bs : List Bool)
    {c : Nat} {s2 : St} {bs2 : List Bool}
    (hl : decLiteral vc mcode s bs = Lit.byte c s2 bs2) : s2.w = s.w ∧ s2.prev = s.prev := by
  unfold decLiteral at hl
  by_cases hm : mcode = mPPP
  · simp only [hm, if_true] at hl
    split at hl
    · split at hl
      · cases hl
      · cases hl; exact ⟨rfl, rfl⟩
    · cases hl; exact ⟨rfl, rfl⟩
  · simp only [hm, if_false] at hl
    split at hl
    · cases hl
    · split at hl
      · cases hl
      · cases hl; exact ⟨rfl, rfl⟩

theorem decEnd_tab (vc : VLCodec) (mcode k : Nat) (s : St) (bs : List Bool) (P : List Nat)
    (h : DecTab s P) :
    DecTab (decEnd vc mcode k s bs) (P ++ (decLoop vc mcode k s bs).1) := by
  induction k generalizing s bs P with
  | zero => simpa [decEnd, decLoop] using h
  | succ k ih =>
    rw [decEnd, decLoop]
    have hr := decRun_tab vc mcode s bs P h
    cases hl : decLiteral vc mcode (decRun vc mcode s bs).1 (decRun vc mcode s bs).2.2 with
    | stop why => exact hr
    | byte c s2 bs2 =>
      have h2 := decLiteral_w_prev vc mcode _ _ hl
      have hstep : DecTab { s2 with
          w := Function.update s2.w s2.prev c
          prev := advance s2.prev c } (P ++ (decRun vc mcode s bs).2.1 ++ [c]) := by
        constructor
        · show advance s2.prev c = _
          rw [h2.2, hr.1, context_snoc]
        · show TableMeans (Function.update s2.w s2.prev c) _
          rw [h2.1, h2.2, hr.1]
          exact tableMeans_snoc hr.2 c
      have := ih _ bs2 _ hstep
      simpa using this

theorem replay_w (mcode n : Nat) (s : St) : (replay mcode n s).1.w = s.w := by
  induction n generalizing s with
  | zero => rfl
  | succ n ih =>
    rw [replay, ih]
    exact (decMatchUpdate_prev mcode s (s.w s.prev)).2

theorem St.init_tab : DecTab St.init [] := ⟨rfl, tableMeans_nil⟩

/-- Claim C13, the meaning of the prediction table: once `compress` has processed the
bytes `P`, and once `decompress` has delivered the bytes `P`, on any bits, the entry of
every context `h` is the byte that followed the most recent position of `P` at which the
context was `h`, and 0 if `h` was the context of no position; the context is the fold of
the update over `P`; a predicted byte leaves the whole table as it is, in `compress` and
in the replay of `decompress`, and a mispredicted byte changes the entry of the current
context only, to that byte. -/
theorem table_meaning (vc : VLCodec) (mcode : Nat) (P : List Nat) (k : Nat)
    (bs : List Bool) :
    TableMeans (encBuf mcode Enc.init P).1.s.w P
    ∧ TableMeans (decEnd vc mcode k St.init bs).w (decLoop vc mcode k St.init bs).1
    ∧ (encBuf mcode Enc.init P).1.s.prev = context P
    ∧ (decEnd vc mcode k St.init bs).prev = context (decLoop vc mcode k St.init bs).1
    ∧ (∀ e c, e.s.w e.s.prev = c → (encStep mcode e c).1.s.w = e.s.w)
    ∧ (∀ n s, (replay mcode n s).1.w = s.w)
    ∧ (∀ e c h, h ≠ e.s.prev → (encStep mcode e c).1.s.w h = e.s.w h)
    ∧ (∀ e c, (encStep mcode e c).1.s.w e.s.prev = c) := by
  have hd := decEnd_tab vc mcode k St.init bs [] St.init_tab
  rw [List.nil_append] at hd
  refine ⟨encBuf_tableMeans mcode P, hd.2, encBuf_prev mcode P Enc.init, hd.1, ?_,
    fun n s => replay_w mcode n s, ?_, fun e c => encStep_w mcode e c⟩
  · intro e c hp
    rw [encStep_w_eq, ← hp, Function.update_eq_self]
  · intro e c h hh
    rw [encStep_w_eq, Function.update_noteq hh]

theorem table_meaning_witness :
    (encBuf mPPP Enc.init [7, 7, 9]).1.s.w 0 = [7, 7, 9].getD 0 0
    ∧ (Enc.init.s.w Enc.init.s.prev = 0 → (encStep mPPP Enc.init 0).1.s.w = Enc.init.s.w) :=
  have h := table_meaning refCodec mPPP [7, 7, 9] 0 []
  ⟨(h.1 0).1 0 (by decide) (by decide)
      (fun j h1 h2 => by
        have hj : j = 1 ∨ j = 2 := by
          simp only [List.length_cons, List.length_nil] at h2
          omega
        rcases hj with rfl | rfl <;> decide),
    h.2.2.2.2.1 Enc.init 0⟩

end Praq4
